import Mathlib

/-!
Verification of the BepInEx configuration codec of `hq-launcher`
(`src-tauri/src/bepinex_cfg.rs`, plus the `set_bepinex_cfg_entry` command of
`src-tauri/src/lib.rs`).

Strings are modelled as `List Char` (`Str`).  Rust `&str`/`String` operations
(`trim`, `strip_prefix`, `split`, `replace`, ...) are given as explicit
structural recursions on `List Char`, specialised to the separator constants
the source uses, so that every definition evaluates by kernel reduction.
`i32` is modelled as `Int` with the overflow checks of Rust's
`str::parse::<i32>` made explicit.  `f32` is modelled as `F32` with exact
decimal semantics: `parse::<f32>` is embedded as an exact decimal-to-rational
reading of the same numeric grammar, and `format!("{}")` as exact shortest
decimal printing; the rounding of real `f32` and its non-finite values are
outside the model, and round-trip facts about float formatting enter the
well-formedness predicate as explicit hypotheses rather than being modelled
bit-exactly.
-/

namespace Cfg

/-- Characters of a Rust string.  All codec functions work on this type. -/
abbrev Str := List Char

/-- Whitespace as used by Rust's `str::trim` (restricted to the ASCII
whitespace that can actually occur here; exotic Unicode whitespace is outside
the model). -/
def isWS (c : Char) : Bool :=
  c = ' ' || c = '\t' || c = '\n' || c = '\r'

/-- `str::trim_start`. -/
def trimStart (s : Str) : Str := s.dropWhile isWS

/-- `str::trim_end`. -/
def trimEnd (s : Str) : Str := (s.reverse.dropWhile isWS).reverse

/-- `str::trim`. -/
def trim (s : Str) : Str := trimEnd (trimStart s)

/-- `str::strip_prefix`: `dropPre pat s` strips the prefix `pat` from `s`. -/
def dropPre : Str → Str → Option Str
  | [], s => some s
  | _ :: _, [] => none
  | p :: ps, c :: cs => if c = p then dropPre ps cs else none

/-- `str::starts_with` for a string pattern. -/
def startsWith (p s : Str) : Bool := (dropPre p s).isSome

/-- `str::split('c')`: split on a single character, keeping empty pieces. -/
def splitOnChar (c : Char) : Str → List Str
  | [] => [[]]
  | x :: xs =>
    match splitOnChar c xs with
    | [] => [[x]]
    | h :: t => if x = c then [] :: h :: t else (x :: h) :: t

/-- `Vec::join(sep)` / `[T]::join`. -/
def joinSep (sep : Str) : List Str → Str
  | [] => []
  | [x] => x
  | x :: y :: t => x ++ sep ++ joinSep sep (y :: t)

/-- `str::split(", ")`, the separator used for option lists and flag values.
Left-to-right scan with the two-character separator taking priority. -/
def splitCommaSpace : Str → List Str
  | [] => [[]]
  | [c] => [[c]]
  | c :: d :: rest =>
    if c = ',' ∧ d = ' ' then [] :: splitCommaSpace rest
    else
      match splitCommaSpace (d :: rest) with
      | [] => [[c]]
      | h :: t => (c :: h) :: t

/-- `str::split_once('=')`. -/
def splitOnceEq : Str → Option (Str × Str)
  | [] => none
  | '=' :: rest => some ([], rest)
  | c :: rest => (splitOnceEq rest).map (fun p => (c :: p.1, p.2))

/-- `str::split_once(" to ")`, used for the acceptable-value-range comment:
the first occurrence of the four-character separator splits the string. -/
def splitOnceTo : Str → Option (Str × Str)
  | [] => none
  | c :: rest =>
    match if c = ' ' then dropPre ['t', 'o', ' '] rest else none with
    | some r => some ([], r)
    | none => (splitOnceTo rest).map (fun p => (c :: p.1, p.2))

/-- `str::trim_start_matches("##")`: strips every leading `##` pair. -/
def trimStartHashes : Str → Str
  | [] => []
  | [c] => [c]
  | c :: d :: rest => if c = '#' ∧ d = '#' then trimStartHashes rest else c :: d :: rest

/-- `String::replace("\\n", "\n")`: the two-character escape becomes a real
newline (left-to-right, non-overlapping). -/
def unescapeNewlines : Str → Str
  | [] => []
  | [c] => [c]
  | c :: d :: rest =>
    if c = '\\' ∧ d = 'n' then '\n' :: unescapeNewlines rest
    else c :: unescapeNewlines (d :: rest)

/-- `str::replace('\n', "\\n")`: a real newline becomes the two-character
escape. -/
def escapeNewlines : Str → Str
  | [] => []
  | c :: rest =>
    if c = '\n' then '\\' :: 'n' :: escapeNewlines rest else c :: escapeNewlines rest

/-- `str::replace(',', ".")`. -/
def commasToDots (s : Str) : Str := s.map (fun c => if c = ',' then '.' else c)

/-- `str::contains('c')`. -/
def containsChar (c : Char) (s : Str) : Bool := s.any (fun x => x = c)

/-- Whether a string contains the two-character sequence `", "`. -/
def containsCommaSpace : Str → Bool
  | [] => false
  | [_] => false
  | c :: d :: rest => (c = ',' ∧ d = ' ') || containsCommaSpace (d :: rest)

/-- `Iterator::position(|opt| opt == target)` over a list of strings: index of
the first exact match. -/
def position (target : Str) : List Str → Option Nat
  | [] => none
  | o :: os => if o = target then some 0 else (position target os).map (· + 1)

/-! ### Decimal numerals -/

/-- Numeric value of an ASCII digit. -/
def digitVal (c : Char) : Option Nat :=
  if '0' ≤ c ∧ c ≤ '9' then some (c.toNat - 48) else none

def i32Max : Int := 2147483647
def i32Min : Int := -2147483648

/-- Digit-accumulation loop of Rust's `str::parse::<i32>`, including the
per-step overflow checks and their error messages. -/
def parseI32Go (neg : Bool) (acc : Int) : Str → Except Str Int
  | [] => .ok acc
  | c :: rest =>
    match digitVal c with
    | none => .error ("invalid digit found in string").data
    | some d =>
      let acc' : Int := if neg then acc * 10 - d else acc * 10 + d
      if acc' < i32Min then .error ("number too small to fit in target type").data
      else if i32Max < acc' then .error ("number too large to fit in target type").data
      else parseI32Go neg acc' rest

/-- `str::parse::<i32>`. -/
def parseI32 : Str → Except Str Int
  | [] => .error ("cannot parse integer from empty string").data
  | '+' :: rest =>
    if rest = [] then .error ("invalid digit found in string").data
    else parseI32Go false 0 rest
  | '-' :: rest =>
    if rest = [] then .error ("invalid digit found in string").data
    else parseI32Go true 0 rest
  | s => parseI32Go false 0 s

/-- Take the maximal leading run of ASCII digits. -/
def takeDigits : Str → (List Nat × Str)
  | c :: rest =>
    match digitVal c with
    | some d =>
      let p := takeDigits rest
      (d :: p.1, p.2)
    | none => ([], c :: rest)
  | [] => ([], [])

/-- Value of a most-significant-first digit list. -/
def digitsToNat (ds : List Nat) : Nat := ds.foldl (fun a d => a * 10 + d) 0

/-- Exact-decimal model of an `f32` value: a rational number as a numerator
and positive denominator, kept in lowest terms by `mkF32` (every value the
codec produces goes through `mkF32`, so structural equality coincides with
numeric equality there).  The rounding to binary floats and the non-finite
values of real `f32` are outside the model. -/
structure F32 where
  num : Int
  den : Nat
  deriving DecidableEq, Repr

/-- Euclid's gcd with explicit fuel (so that it evaluates by kernel
reduction); agrees with `Nat.gcd` whenever `m < fuel`. -/
def gcdFuel : Nat → Nat → Nat → Nat
  | 0, _, n => n
  | fuel + 1, m, n => if m = 0 then n else gcdFuel fuel (n % m) m

/-- Build an `F32` in lowest terms from a numerator and denominator. -/
def mkF32 (n : Int) (d : Nat) : F32 :=
  let g := gcdFuel (n.natAbs + d + 1) n.natAbs d
  if g = 0 then ⟨0, 1⟩ else ⟨n / (g : Int), d / g⟩

/-- Digits of an exponent suffix: all remaining characters must be digits,
and at least one must be present. -/
def readExpNat (t : Str) : Option Nat :=
  match takeDigits t with
  | (d :: ds, []) => some (digitsToNat (d :: ds))
  | _ => none

/-- Apply a signed decimal exponent to an exact numerator/denominator pair. -/
def applySignedExp (num den : Nat) : Str → Option (Nat × Nat)
  | '+' :: t => (readExpNat t).map (fun e => (num * 10 ^ e, den))
  | '-' :: t => (readExpNat t).map (fun e => (num, den * 10 ^ e))
  | t => (readExpNat t).map (fun e => (num * 10 ^ e, den))

/-- Optional `e`/`E` exponent part after the mantissa. -/
def applyExp (num den : Nat) : Str → Option (Nat × Nat)
  | [] => some (num, den)
  | 'e' :: r => applySignedExp num den r
  | 'E' :: r => applySignedExp num den r
  | _ => none

/-- Mantissa-and-exponent body of a float literal, after the optional sign:
the exact (numerator, denominator) value of `digits[.digits][(e|E)[±]digits]`. -/
def parseF32Body (s : Str) : Option (Nat × Nat) :=
  match takeDigits s with
  | (ip, r1) =>
    match r1 with
    | '.' :: r2 =>
      match takeDigits r2 with
      | (fp, r3) =>
        if ip = [] ∧ fp = [] then none
        else applyExp (digitsToNat ip * 10 ^ fp.length + digitsToNat fp) (10 ^ fp.length) r3
    | [] => if ip = [] then none else some (digitsToNat ip, 1)
    | _ => if ip = [] then none else applyExp (digitsToNat ip) 1 r1

/-- `str::parse::<f32>` on the numeric grammar, with exact decimal semantics
(the `inf`/`NaN` spellings of Rust, being non-finite, are outside the model
and rejected). -/
def parseF32 (s : Str) : Except Str F32 :=
  let body := match s with
    | '+' :: r => (parseF32Body r).map (fun p => mkF32 (p.1 : Int) p.2)
    | '-' :: r => (parseF32Body r).map (fun p => mkF32 (-(p.1 : Int)) p.2)
    | r => (parseF32Body r).map (fun p => mkF32 (p.1 : Int) p.2)
  match body with
  | some q => .ok q
  | none => .error ("invalid float literal").data

/-- Decimal digits of a natural number, most significant first (fuel-based so
that it evaluates by kernel reduction; 40 digits cover every value the codec
can print). -/
def natToStrGo : Nat → Nat → Str
  | 0, _ => []
  | fuel + 1, n =>
    if n < 10 then [Char.ofNat (48 + n)]
    else natToStrGo fuel (n / 10) ++ [Char.ofNat (48 + n % 10)]

/-- `u32`-style decimal printing. -/
def natToStr (n : Nat) : Str := natToStrGo 40 n

/-- `i32::to_string` / integer `Display`. -/
def intToStr (n : Int) : Str :=
  if n < 0 then '-' :: natToStr (-n).toNat else natToStr n.toNat

/-- Multiplicity of `p` in `n` (fuel-based). -/
def vpFuel (p : Nat) : Nat → Nat → Nat
  | 0, _ => 0
  | fuel + 1, n =>
    if n % p = 0 ∧ n ≠ 0 ∧ 1 < p then 1 + vpFuel p fuel (n / p) else 0

/-- Insert a decimal point `k` digits from the right, zero-padding so that at
least one digit precedes the point. -/
def insertDot (ds : Str) (k : Nat) : Str :=
  let ds' := if ds.length ≤ k then List.replicate (k + 1 - ds.length) '0' ++ ds else ds
  ds'.take (ds'.length - k) ++ '.' :: ds'.drop (ds'.length - k)

/-- `format!("{}", x)` for `f32`, in the exact-decimal model: a rational with
a `10^k`-smooth denominator prints as its shortest plain decimal (which is
what Rust's shortest-round-trip `Display` prints for every `f32` value); other
rationals cannot arise from `f32` and get an arbitrary total fallback. -/
def formatF32 (q : F32) : Str :=
  if q.den = 1 then intToStr q.num
  else
    let a := vpFuel 2 q.den q.den
    let b := vpFuel 5 q.den q.den
    let k := max a b
    if q.den = 2 ^ a * 5 ^ b then
      (if q.num < 0 then ['-'] else []) ++ insertDot (natToStr (q.num.natAbs * 10 ^ k / q.den)) k
    else intToStr q.num ++ '/' :: natToStr q.den

/-! ### Data model (`bepinex_cfg.rs`) -/

/-- `Num<T>`: a numeric value with an optional half-open range
(`Range<T> { start, end }` modelled as a pair). -/
structure Num (α : Type) where
  value : α
  range : Option (α × α)
  deriving DecidableEq, Repr

/-- `Metadata`. -/
structure Metadata where
  mod_name : Str
  mod_version : Str
  mod_guid : Str
  deriving DecidableEq, Repr

/-- `Value` (the `SimpleValue`/`EnumLikeValue`/`ParsedValue` intermediates of
the source and their collapse `parsed_to_value` are inlined: constructors
correspond one-to-one). -/
inductive Value where
  | Bool (b : Bool)
  | String (s : Str)
  | Int (n : Num Int)
  | Float (n : Num F32)
  | Enum (index : Nat) (options : List Str)
  | Flags (indicies : List Nat) (options : List Str)
  deriving DecidableEq, Repr

/-- `Entry`. -/
structure Entry where
  name : Str
  description : Option Str
  default : Option Value
  value : Value
  deriving DecidableEq, Repr

/-- `Section`. -/
structure Section where
  name : Str
  entries : List Entry
  deriving DecidableEq, Repr

/-- `FileData`. -/
structure FileData where
  metadata : Option Metadata
  sections : List Section
  deriving DecidableEq, Repr

/-- `EntryBuilder`. -/
structure EntryBuilder where
  description : Option Str := none
  type_name : Option Str := none
  default_value : Option Str := none
  acceptable_values : Option (List Str) := none
  is_flags : Bool := false
  range : Option (Str × Str) := none
  name : Option Str := none
  value : Option Str := none
  deriving DecidableEq, Repr

def EntryBuilder.empty : EntryBuilder := {}

/-- `FLAGS_MESSAGE`. -/
def FLAGS_MESSAGE : Str :=
  ("# Multiple values can be set at the same time by separating them with , (e.g. Debug, Warning)").data

/-! ### Value parsing -/

/-- `parse_num_i32`. -/
def parse_num_i32 (value : Str) (range : Option (Str × Str)) : Except Str (Num Int) := do
  let v ← parseI32 (trim value)
  match range with
  | some (mn, mx) => do
    let mn' ← parseI32 (trim mn)
    let mx' ← parseI32 (trim mx)
    pure ⟨v, some (mn', mx')⟩
  | none => pure ⟨v, none⟩

/-- `parse_num_f32` (commas become dots before numeric parsing, for the value
and for both range bounds). -/
def parse_num_f32 (value : Str) (range : Option (Str × Str)) : Except Str (Num F32) := do
  let v ← parseF32 (commasToDots (trim value))
  match range with
  | some (mn, mx) => do
    let mn' ← parseF32 (commasToDots (trim mn))
    let mx' ← parseF32 (commasToDots (trim mx))
    pure ⟨v, some (mn', mx')⟩
  | none => pure ⟨v, none⟩

/-- `parse_orphaned_entry_line`. -/
def parse_orphaned_entry_line (line : Str) : Option (Str × Str) :=
  (splitOnceEq line).map (fun p => (trim p.1, trim p.2))

/-- `check_value_type`: heuristic type inference from the first character. -/
def check_value_type (value : Str) : Str :=
  let first_char := value.head?.getD (Char.ofNat 0)
  if '0' ≤ first_char ∧ first_char ≤ '9' then
    if containsChar '.' value then ("Single").data else ("Int32").data
  else if first_char = 't' ∨ first_char = 'f' then ("Boolean").data
  else ("String").data

/-- `EntryBuilder::parse_enum`. -/
def parse_enum (string : Str) (options : List Str) (is_flags : Bool) : Value :=
  if is_flags then
    .Flags ((splitCommaSpace string).filterMap (fun v => position v options)) options
  else
    .Enum ((position string options).getD 0) options

/-- `EntryBuilder::parse_simple_value`. -/
def parse_simple_value (value : Str) (type_name : Str) (range : Option (Str × Str)) :
    Except Str Value :=
  if type_name = ("Boolean").data then
    if trim value = ("true").data then .ok (.Bool true)
    else if trim value = ("false").data then .ok (.Bool false)
    else .error ("provided string was not `true` or `false`").data
  else if type_name = ("String").data then .ok (.String (unescapeNewlines value))
  else if type_name = ("Int32").data ∨ type_name = ("Number").data then
    (parse_num_i32 value range).map .Int
  else if type_name = ("Single").data ∨ type_name = ("Double").data then
    (parse_num_f32 value range).map .Float
  else .ok (.String value)

/-- `EntryBuilder::parse_value`. -/
def parse_value (string : Str) (options : Option (List Str)) (type_name : Str)
    (range : Option (Str × Str)) (is_flags : Bool) : Except Str Value :=
  match options with
  | some options => .ok (parse_enum string options is_flags)
  | none => parse_simple_value string type_name range

/-- `ParsedEntry`. -/
structure ParsedEntry where
  name : Str
  description : Option Str
  type_name : Str
  default : Option Value
  value : Value
  deriving DecidableEq, Repr

/-- `EntryBuilder::build`: resolve the accumulated comment state plus the
literal entry line into a typed entry (default first, then value, matching the
source's error order). -/
def EntryBuilder.build (b : EntryBuilder) : Except Str ParsedEntry := do
  let name ← match b.name with
    | some n => Except.ok n
    | none => Except.error ("No entry name").data
  let value_raw := b.value.getD []
  let type_name := b.type_name.getD (check_value_type value_raw)
  let dflt ← match b.default_value with
    | some v => (parse_value v b.acceptable_values type_name b.range b.is_flags).map some
    | none => Except.ok (none : Option Value)
  let value ← parse_value value_raw b.acceptable_values type_name b.range b.is_flags
  pure ⟨name, b.description, type_name, dflt, value⟩

/-! ### Rendering -/

/-- `value_to_string`. -/
def value_to_string : Value → Str
  | .Bool b => if b then ("true").data else ("false").data
  | .String s => escapeNewlines s
  | .Int n => intToStr n.value
  | .Float n => formatF32 n.value
  | .Enum index options => (options.getD index [])
  | .Flags indicies options =>
    if indicies = [] then ['0']
    else joinSep (',' :: [' ']) (indicies.filterMap (fun i => options.get? i))

/-- Rust `str::lines`: split on `\n`, no trailing empty line, one trailing
`\r` stripped per line. -/
def rustLines (s : Str) : List Str :=
  let ps := splitOnChar '\n' s
  let ps' := if ps.getLast? = some [] then ps.dropLast else ps
  ps'.map (fun l => if l.getLast? = some '\r' then l.dropLast else l)

/-- The `## `-prefixed description lines `render_entry_comments` pushes. -/
def descLinesOf : Option Str → List Str
  | some desc => (rustLines desc).map (fun l => ("## ").data ++ l)
  | none => []

/-- The `# Default value:` line `render_entry_comments` pushes. -/
def defaultLineOf : Option Value → Str
  | some d => ("# Default value: ").data ++ value_to_string d
  | none => ("# Default value:").data

/-- The `# Acceptable values:` line `render_entry_comments` pushes. -/
def acceptLinesOf : Option (List Str) → List Str
  | some opts => [("# Acceptable values: ").data ++ joinSep (',' :: [' ']) opts]
  | none => []

/-- The range comment or flags marker `render_entry_comments` pushes. -/
def extraLinesOf : Value → List Str
  | .Flags _ _ => [FLAGS_MESSAGE]
  | .Int n =>
    match n.range with
    | some (a, b) =>
      [("# Acceptable value range: From ").data ++ intToStr a ++ (" to ").data ++ intToStr b]
    | none => []
  | .Float n =>
    match n.range with
    | some (a, b) =>
      [("# Acceptable value range: From ").data ++ formatF32 a ++ (" to ").data ++ formatF32 b]
    | none => []
  | _ => []

/-- `render_entry_comments`. -/
def render_entry_comments (entry : Entry) (type_name : Str) (options : Option (List Str)) :
    List Str :=
  descLinesOf entry.description ++
    [("# Setting type: ").data ++ type_name, defaultLineOf entry.default] ++
    acceptLinesOf options ++ extraLinesOf entry.value

/-- `infer_type_name`. -/
def infer_type_name (entry : Entry) : Str :=
  match entry.value with
  | .Bool _ => ("Boolean").data
  | .String _ => ("String").data
  | .Int _ => ("Int32").data
  | .Float _ => ("Single").data
  | .Enum _ _ => ("String").data
  | .Flags _ _ => ("String").data

/-- `value_options`. -/
def value_options (entry : Entry) : Option (List Str) :=
  match entry.value with
  | .Enum _ options => some options
  | .Flags _ options => some options
  | _ => none

/-- `read_metadata_line`. -/
def read_metadata_line (line : Str) : Option (Str × Str) := do
  let rest ← dropPre ("## Settings file was created by plugin ").data line
  let parts := splitOnChar ' ' rest
  if parts.length < 2 then none
  else do
    let version ← parts.getLast?
    some (joinSep [' '] parts.dropLast, version)

/-! ### The line machine (`parse_reader`) -/

/-- How one (already newline-stripped) input line is dispatched by the parser
loop: the if-chain of `parse_reader` in source order. -/
inductive LineKind where
  | empty
  | metaHeader
  | sectionHeader (name : Str)
  | desc
  | flagsMarker
  | hashMeta (meta : Str)
  | entryLine (name value : Str)
  | skip
  deriving DecidableEq, Repr

/-- Dispatch of one line (the if-chain of `parse_reader`, in order). -/
def classify (line : Str) : LineKind :=
  if line = [] then .empty
  else if startsWith ("## Settings file was created by plugin ").data line then .metaHeader
  else if line.head? = some '[' ∧ line.getLast? = some ']' then
    .sectionHeader ((line.drop 1).dropLast)
  else if startsWith ['#', '#'] line then .desc
  else if line = FLAGS_MESSAGE then .flagsMarker
  else
    match dropPre ['#', ' '] line with
    | some meta => .hashMeta meta
    | none =>
      match parse_orphaned_entry_line line with
      | some (n, v) => .entryLine n v
      | none => .skip

/-- The `# `-comment field dispatch inside `parse_reader`. -/
def applyHashMeta (b : EntryBuilder) (meta : Str) : EntryBuilder :=
  match dropPre ("Setting type: ").data meta with
  | some t => { b with type_name := some t }
  | none =>
    match dropPre ("Default value: ").data meta with
    | some d => { b with default_value := some d }
    | none =>
      if meta = ("Default value:").data then { b with default_value := none }
      else
        match dropPre ("Acceptable values: ").data meta with
        | some v => { b with acceptable_values := some (splitCommaSpace v) }
        | none =>
          match dropPre ("Acceptable value range: From ").data meta with
          | some range =>
            match splitOnceTo range with
            | some (mn, mx) => { b with range := some (mn, mx) }
            | none => b
          | none => b

/-- Parser loop state. -/
structure ParseState where
  metadata : Option Metadata := none
  sections : List Section := []
  current_section : Option Section := none
  pending_builder : Option EntryBuilder := none
  pending_desc_lines : List Str := []
  deriving DecidableEq, Repr

def ParseState.initial : ParseState := {}

/-- The builder an entry line is resolved with: the pending builder (or a
fresh one), the joined pending description lines when any, and the trimmed
name and raw value of the line. -/
def entryBuilderOf (st : ParseState) (name value : Str) : EntryBuilder :=
  let b0 := st.pending_builder.getD EntryBuilder.empty
  let b1 := if st.pending_desc_lines ≠ [] then
      { b0 with description := some (joinSep ['\n'] st.pending_desc_lines) }
    else b0
  { b1 with name := some name, value := some value }

/-- Processing of an entry line: take the pending builder, attach description
buffer, name and raw value, build, then append to the open section (error if
none is open; a build failure surfaces first, as in the source). -/
def applyEntryLine (st : ParseState) (name value : Str) : Except Str ParseState := do
  let parsed ← (entryBuilderOf st name value).build
  let entry : Entry := ⟨parsed.name, parsed.description, parsed.default, parsed.value⟩
  match st.current_section with
  | none => .error ("entry has no section").data
  | some sec =>
    .ok { st with
          current_section := some { sec with entries := sec.entries ++ [entry] },
          pending_builder := none,
          pending_desc_lines := [] }

/-- `parse_reader`: the single forward pass over the (newline-stripped) lines.
The metadata branch consumes the following physical line for the GUID, exactly
as the source's extra `read_line` does. -/
def parse_reader : List Str → ParseState → Except Str FileData
  | [], st =>
    let sections := match st.current_section with
      | some sec => st.sections ++ [sec]
      | none => st.sections
    .ok ⟨st.metadata, sections⟩
  | line :: rest, st =>
    match classify line with
    | .empty => parse_reader rest st
    | .metaHeader =>
      match read_metadata_line line with
      | some (nm, ver) =>
        match rest with
        | [] => parse_reader [] { st with metadata := some ⟨nm, ver, []⟩ }
        | guidLine :: rest2 =>
          let guid := (dropPre ("## Plugin GUID: ").data guidLine).getD []
          parse_reader rest2 { st with metadata := some ⟨nm, ver, guid⟩ }
      | none => parse_reader rest st
    | .sectionHeader nm =>
      let st' := match st.current_section with
        | some sec => { st with sections := st.sections ++ [sec] }
        | none => st
      parse_reader rest { st' with current_section := some ⟨nm, []⟩ }
    | .desc =>
      parse_reader rest
        { st with pending_desc_lines := st.pending_desc_lines ++ [trim (trimStartHashes line)] }
    | .flagsMarker =>
      let b := st.pending_builder.getD EntryBuilder.empty
      parse_reader rest { st with pending_builder := some { b with is_flags := true } }
    | .hashMeta meta =>
      let b := st.pending_builder.getD EntryBuilder.empty
      parse_reader rest { st with pending_builder := some (applyHashMeta b meta) }
    | .entryLine nm v =>
      match applyEntryLine st nm v with
      | .ok st' => parse_reader rest st'
      | .error e => .error e
    | .skip => parse_reader rest st

/-- The `read_line` loop's view of the input text: split on `\n`; a final
empty piece corresponds to the zero-byte read that ends the loop; every
trailing `\r` of each line is popped, as the source's `while` does. -/
def rustReadLines (text : Str) : List Str :=
  let ps := splitOnChar '\n' text
  let ps' := if ps.getLast? = some [] then ps.dropLast else ps
  ps'.map (fun l => (l.reverse.dropWhile (fun c => c = '\r')).reverse)

/-- `parse`. -/
def parse (text : Str) : Except Str FileData :=
  parse_reader (rustReadLines text) ParseState.initial

/-! ### `write` -/

/-- The lines `write` pushes, in order. -/
def writeLines (file : FileData) : List Str :=
  (match file.metadata with
   | some m =>
     [("## Settings file was created by plugin ").data ++ m.mod_name ++ [' '] ++ m.mod_version,
      ("## Plugin GUID: ").data ++ m.mod_guid, []]
   | none => []) ++
  (file.sections.map (fun sec =>
    [['['] ++ sec.name ++ [']'], []] ++
      (sec.entries.map (fun entry =>
        render_entry_comments entry (infer_type_name entry) (value_options entry) ++
        [entry.name ++ (" = ").data ++ value_to_string entry.value, []])).flatten
    )).flatten

/-- `write` (always `Ok` in the source; the `Result` wrapper is dropped). -/
def write (file : FileData) : Str := joinSep ['\n'] (writeLines file)

instance {ε α : Type} [DecidableEq ε] [DecidableEq α] : DecidableEq (Except ε α) := fun a b =>
  match a, b with
  | .ok x, .ok y => decidable_of_iff (x = y) (by simp)
  | .error x, .error y => decidable_of_iff (x = y) (by simp)
  | .ok _, .error _ => isFalse (by simp)
  | .error _, .ok _ => isFalse (by simp)

/-! ### `set_bepinex_cfg_entry` (`lib.rs`) -/

/-- `iter_mut().find(p)` followed by a mutation of the found element:
replace the first element satisfying `p`, or report that none was found. -/
def updateFirst {α : Type} (p : α → Bool) (f : α → α) : List α → Option (List α)
  | [] => none
  | x :: xs => if p x then some (f x :: xs) else (updateFirst p f xs).map (x :: ·)

/-- The entry half of `set_bepinex_cfg_entry`: replace the value of the first
entry with the given name, or push a fresh entry (no description, no default)
at the end. -/
def applyEntryUpdate (entryName : Str) (v : Value) (sec : Section) : Section :=
  match updateFirst (fun e => e.name = entryName) (fun e => { e with value := v }) sec.entries with
  | some es => { sec with entries := es }
  | none => { sec with entries := sec.entries ++ [⟨entryName, none, none, v⟩] }

/-- The in-memory update of `set_bepinex_cfg_entry` (`lib.rs`): find the first
section with the given name, pushing a fresh empty one at the end if none
exists (and re-running the find, as the source does), then update or append
the entry inside it.  File I/O around this is owned by the caller. -/
def set_bepinex_cfg_entry (file : FileData) (sectionName entryName : Str) (v : Value) :
    Except Str FileData :=
  match updateFirst (fun s => s.name = sectionName) (applyEntryUpdate entryName v)
      file.sections with
  | some secs => .ok { file with sections := secs }
  | none =>
    match updateFirst (fun s => s.name = sectionName) (applyEntryUpdate entryName v)
        (file.sections ++ [⟨sectionName, []⟩]) with
    | some secs => .ok { file with sections := secs }
    | none => .error ("failed to create section").data

/-! ## Supporting lemmas -/

/-- Whether a string contains the two-character escape `\n` literally. -/
def hasEscSeq : Str → Bool
  | [] => false
  | [_] => false
  | c :: d :: rest => (c = '\\' ∧ d = 'n') || hasEscSeq (d :: rest)

theorem dropPre_append (p s : Str) : dropPre p (p ++ s) = some s := by
  induction p with
  | nil => rfl
  | cons c cs ih => simp [dropPre, ih]

theorem trim_of_no_ws {s : Str} (h : ∀ c ∈ s, isWS c = false) : trim s = s := by
  have h1 : trimStart s = s := by
    cases s with
    | nil => rfl
    | cons c cs => simp [trimStart, List.dropWhile_cons, h c (by simp)]
  have h2 : trimEnd s = s := by
    rw [trimEnd]
    cases hr : s.reverse with
    | nil => simp [List.reverse_eq_nil_iff.mp hr]
    | cons c cs =>
      have hc : c ∈ s := by
        have : c ∈ s.reverse := by rw [hr]; simp
        simpa using this
      rw [List.dropWhile_cons, h c hc]
      simp [← hr]
  rw [trim, h1, h2]

theorem trim_cons_ws {c : Char} (hc : isWS c = true) (s : Str) : trim (c :: s) = trim s := by
  rw [trim, trim, trimStart, trimStart, List.dropWhile_cons, hc]
  simp

theorem splitOnChar_ne_nil (c : Char) (s : Str) : splitOnChar c s ≠ [] := by
  cases s with
  | nil => simp [splitOnChar]
  | cons x xs =>
    rw [splitOnChar]
    cases splitOnChar c xs with
    | nil => simp
    | cons h t =>
      by_cases hx : x = c <;> simp [hx]

theorem joinSep_splitOnChar (c : Char) (s : Str) :
    joinSep [c] (splitOnChar c s) = s := by
  induction s with
  | nil => rfl
  | cons x xs ih =>
    rw [splitOnChar]
    cases hs : splitOnChar c xs with
    | nil => exact absurd hs (splitOnChar_ne_nil c xs)
    | cons h t =>
      rw [hs] at ih
      by_cases hx : x = c
      · simp only [hx, if_true, joinSep]
        cases t with
        | nil => simp [joinSep] at ih ⊢; exact ih
        | cons t0 ts => simp [joinSep] at ih ⊢; exact ih
      · simp only [hx, if_false]
        cases t <;> simp_all [joinSep]

theorem splitOnChar_eq_single {c : Char} {s : Str} (h : containsChar c s = false) :
    splitOnChar c s = [s] := by
  induction s with
  | nil => rfl
  | cons x xs ih =>
    simp only [containsChar, List.any_cons, Bool.or_eq_false_iff, decide_eq_false_iff_not] at h
    rw [splitOnChar, ih (by simp [containsChar, h.2])]
    simp [h.1]

theorem splitOnChar_append_cons (c : Char) (a b : Str) :
    splitOnChar c (a ++ c :: b) = splitOnChar c a ++ splitOnChar c b := by
  induction a with
  | nil =>
    rw [List.nil_append]
    cases hsb : splitOnChar c b with
    | nil => exact absurd hsb (splitOnChar_ne_nil c b)
    | cons h t => simp [splitOnChar, hsb]
  | cons x xs ih =>
    rw [List.cons_append, splitOnChar, ih]
    cases hs : splitOnChar c xs with
    | nil => exact absurd hs (splitOnChar_ne_nil c xs)
    | cons h t =>
      rw [splitOnChar, hs]
      by_cases hx : x = c <;> simp [hx]

theorem position_eq_none_of_not_mem {t : Str} {l : List Str} (h : t ∉ l) :
    position t l = none := by
  induction l with
  | nil => rfl
  | cons o os ih =>
    simp only [List.mem_cons, not_or] at h
    simp [position, Ne.symm h.1, ih h.2]

theorem position_eq_findIdx? (t : Str) (l : List Str) :
    position t l = List.findIdx? (fun o => o = t) l := by
  have key : ∀ (l : List Str) (i : Nat),
      List.findIdx? (fun o => o = t) l i = (position t l).map (· + i) := by
    intro l
    induction l with
    | nil => intro i; rfl
    | cons o os ih =>
      intro i
      by_cases h : o = t
      · simp [List.findIdx?_cons, position, h]
      · simp only [List.findIdx?_cons, position, decide_eq_true_eq, h, if_false, ih,
          Option.map_map]
        cases position t os <;> simp [Function.comp, Nat.add_assoc, Nat.add_comm 1 i]
  rw [key l 0]
  cases position t l <;> simp

theorem mem_of_position_eq_some {t : Str} {l : List Str} {i : Nat}
    (h : position t l = some i) : l.get? i = some t := by
  induction l generalizing i with
  | nil => simp [position] at h
  | cons o os ih =>
    by_cases ho : o = t
    · simp [position, ho] at h
      subst h; simp [ho]
    · simp [position, ho] at h
      obtain ⟨j, hj, rfl⟩ := h
      simpa using ih hj

/-! ### Decimal round trip for i32 -/

/-- `v` fits in an `i32`. -/
def inI32 (v : Int) : Bool := decide (i32Min ≤ v ∧ v ≤ i32Max)

theorem digitVal_ofNat {d : Nat} (h : d < 10) : digitVal (Char.ofNat (48 + d)) = some d := by
  interval_cases d <;> decide

theorem natToStrGo_mem {fuel n : Nat} (h : n < 10 ^ fuel) :
    ∀ c ∈ natToStrGo fuel n, ∃ d, d < 10 ∧ c = Char.ofNat (48 + d) := by
  induction fuel generalizing n with
  | zero => intro c hc; simp [natToStrGo] at hc
  | succ fuel ih =>
    intro c hc
    rw [natToStrGo] at hc
    by_cases hn : n < 10
    · rw [if_pos hn] at hc
      simp at hc
      exact ⟨n, hn, hc⟩
    · rw [if_neg hn] at hc
      rcases List.mem_append.mp hc with hc | hc
      · have hdiv : n / 10 < 10 ^ fuel := by
          rw [Nat.div_lt_iff_lt_mul (by norm_num)]
          calc n < 10 ^ (fuel + 1) := h
            _ = 10 ^ fuel * 10 := by rw [pow_succ]
        exact ih hdiv c hc
      · simp at hc
        exact ⟨n % 10, Nat.mod_lt _ (by norm_num), hc⟩

theorem natToStrGo_ne_nil (fuel n : Nat) : natToStrGo (fuel + 1) n ≠ [] := by
  rw [natToStrGo]
  by_cases hn : n < 10 <;> simp [hn]

theorem parseI32Go_append (neg : Bool) (a b : Str) (acc : Int) :
    parseI32Go neg acc (a ++ b) =
      match parseI32Go neg acc a with
      | .ok acc' => parseI32Go neg acc' b
      | .error e => .error e := by
  induction a generalizing acc with
  | nil => simp [parseI32Go]
  | cons c cs ih =>
    simp only [List.cons_append, parseI32Go]
    cases digitVal c with
    | none => rfl
    | some d =>
      simp only []
      by_cases h1 : (if neg then acc * 10 - d else acc * 10 + d) < i32Min
      · simp [h1]
      · by_cases h2 : i32Max < (if neg then acc * 10 - d else acc * 10 + d) <;>
          simp [h1, h2, ih]

theorem parseI32Go_natToStrGo_pos {fuel n : Nat} (acc : Int) (h : n < 10 ^ fuel)
    (h0 : 0 ≤ acc)
    (hmax : acc * 10 ^ (natToStrGo fuel n).length + n ≤ i32Max) :
    parseI32Go false acc (natToStrGo fuel n) =
      .ok (acc * 10 ^ (natToStrGo fuel n).length + n) := by
  induction fuel generalizing n acc with
  | zero =>
    have : n = 0 := by omega
    subst this
    simp [natToStrGo, parseI32Go]
  | succ fuel ih =>
    rw [natToStrGo] at hmax ⊢
    by_cases hn : n < 10
    · rw [if_pos hn] at hmax ⊢
      rw [parseI32Go, digitVal_ofNat hn]
      simp only [List.length_cons, List.length_nil, pow_one, zero_add, pow_zero] at hmax ⊢
      have hge : (0 : Int) ≤ acc * 10 + n := by positivity
      rw [if_neg (by simp only [i32Min]; omega), if_neg (by simp only [i32Max] at hmax ⊢; omega)]
      simp [parseI32Go, pow_succ]
    · rw [if_neg hn] at hmax ⊢
      have hdiv : n / 10 < 10 ^ fuel := by
        rw [Nat.div_lt_iff_lt_mul (by norm_num)]
        calc n < 10 ^ (fuel + 1) := h
          _ = 10 ^ fuel * 10 := by rw [pow_succ]
      rw [parseI32Go_append]
      have hlen : (natToStrGo fuel (n / 10) ++ [Char.ofNat (48 + n % 10)]).length =
          (natToStrGo fuel (n / 10)).length + 1 := by simp
      rw [hlen] at hmax
      have hmod : (n : Int) = (n / 10 : Nat) * 10 + (n % 10 : Nat) := by
        push_cast
        omega
      have hmid : acc * 10 ^ (natToStrGo fuel (n / 10)).length + (n / 10 : Nat) ≤ i32Max := by
        have hstep : (acc * 10 ^ (natToStrGo fuel (n / 10)).length + (n / 10 : Nat)) * 10 +
            (n % 10 : Nat) = acc * 10 ^ ((natToStrGo fuel (n / 10)).length + 1) + n := by
          rw [pow_succ]
          push_cast
          ring_nf
          omega
        have hge : (0 : Int) ≤ acc * 10 ^ (natToStrGo fuel (n / 10)).length + (n / 10 : Nat) := by
          positivity
        omega
      simp only [ih acc hdiv h0 hmid]
      rw [parseI32Go, digitVal_ofNat (Nat.mod_lt _ (by norm_num))]
      simp only [Bool.false_eq_true, if_false]
      have hge2 : (0 : Int) ≤ acc * 10 ^ (natToStrGo fuel (n / 10)).length + (n / 10 : Nat) := by
        positivity
      have heq2 : (acc * 10 ^ (natToStrGo fuel (n / 10)).length + (n / 10 : Nat)) * 10 +
          (n % 10 : Nat) = acc * 10 ^ ((natToStrGo fuel (n / 10)).length + 1) + n := by
        rw [pow_succ]
        push_cast
        ring_nf
        omega
      rw [if_neg (by simp only [i32Min]; omega),
        if_neg (by rw [heq2]; simp only [i32Max] at hmax ⊢; omega),
        parseI32Go, heq2, hlen]

theorem parseI32Go_natToStrGo_neg {fuel n : Nat} (acc : Int) (h : n < 10 ^ fuel)
    (h0 : acc ≤ 0)
    (hmin : i32Min ≤ acc * 10 ^ (natToStrGo fuel n).length - n) :
    parseI32Go true acc (natToStrGo fuel n) =
      .ok (acc * 10 ^ (natToStrGo fuel n).length - n) := by
  induction fuel generalizing n acc with
  | zero =>
    have : n = 0 := by omega
    subst this
    simp [natToStrGo, parseI32Go]
  | succ fuel ih =>
    rw [natToStrGo] at hmin ⊢
    by_cases hn : n < 10
    · rw [if_pos hn] at hmin ⊢
      rw [parseI32Go, digitVal_ofNat hn]
      simp only [List.length_cons, List.length_nil, pow_one, zero_add, pow_zero] at hmin ⊢
      have hle : acc * 10 - n ≤ 0 := by
        have : acc * 10 ≤ 0 := by
          have := mul_nonpos_of_nonpos_of_nonneg h0 (by norm_num : (0:Int) ≤ 10)
          linarith
        omega
      rw [if_neg (by simp only [i32Min] at hmin ⊢; omega),
        if_neg (by simp only [i32Max]; omega)]
      simp [parseI32Go, pow_succ]
    · rw [if_neg hn] at hmin ⊢
      have hdiv : n / 10 < 10 ^ fuel := by
        rw [Nat.div_lt_iff_lt_mul (by norm_num)]
        calc n < 10 ^ (fuel + 1) := h
          _ = 10 ^ fuel * 10 := by rw [pow_succ]
      rw [parseI32Go_append]
      have hlen : (natToStrGo fuel (n / 10) ++ [Char.ofNat (48 + n % 10)]).length =
          (natToStrGo fuel (n / 10)).length + 1 := by simp
      rw [hlen] at hmin
      have hstep : (acc * 10 ^ (natToStrGo fuel (n / 10)).length - (n / 10 : Nat)) * 10 -
          (n % 10 : Nat) = acc * 10 ^ ((natToStrGo fuel (n / 10)).length + 1) - n := by
        rw [pow_succ]
        push_cast
        ring_nf
        omega
      have hle2 : acc * 10 ^ (natToStrGo fuel (n / 10)).length - (n / 10 : Nat) ≤ 0 := by
        have : acc * 10 ^ (natToStrGo fuel (n / 10)).length ≤ 0 :=
          mul_nonpos_of_nonpos_of_nonneg h0 (by positivity)
        have hnn : (0 : Int) ≤ (n / 10 : Nat) := by positivity
        omega
      have hmid : i32Min ≤ acc * 10 ^ (natToStrGo fuel (n / 10)).length - (n / 10 : Nat) := by
        have hnn : (0 : Int) ≤ (n % 10 : Nat) := by positivity
        simp only [i32Min] at hmin ⊢
        omega
      simp only [ih acc hdiv h0 hmid]
      rw [parseI32Go, digitVal_ofNat (Nat.mod_lt _ (by norm_num))]
      simp only [if_true]
      have heq2 : (acc * 10 ^ (natToStrGo fuel (n / 10)).length - (n / 10 : Nat)) * 10 -
          (n % 10 : Nat) = acc * 10 ^ ((natToStrGo fuel (n / 10)).length + 1) - n := by
        rw [pow_succ]
        push_cast
        ring_nf
        omega
      rw [if_neg (by rw [heq2]; simp only [i32Min] at hmin ⊢; omega),
        if_neg (by simp only [i32Max]; omega),
        parseI32Go, heq2, hlen]

theorem parseI32_intToStr {v : Int} (h : inI32 v = true) : parseI32 (intToStr v) = .ok v := by
  rw [inI32, decide_eq_true_eq] at h
  obtain ⟨hminv, hmaxv⟩ := h
  by_cases hv : v < 0
  · rw [intToStr, if_pos hv]
    have hn : ((-v).toNat : Int) = -v := Int.toNat_of_nonneg (by omega)
    have hb : (-v).toNat < 10 ^ 40 := by
      have h1 : ((-v).toNat : Int) < 10 ^ 40 := by
        rw [hn]
        simp only [i32Min] at hminv
        norm_num
        omega
      exact_mod_cast h1
    have hne : natToStr (-v).toNat ≠ [] := natToStrGo_ne_nil 39 _
    have hgo := @parseI32Go_natToStrGo_neg 40 (-v).toNat 0 hb le_rfl
      (by
        simp only [zero_mul, zero_sub]
        simp only [i32Min] at hminv ⊢
        omega)
    have hstep : parseI32 ('-' :: natToStr (-v).toNat) =
        parseI32Go true 0 (natToStr (-v).toNat) := by
      simp [parseI32, hne]
    rw [hstep, natToStr, hgo]
    simp only [zero_mul, zero_sub]
    congr 1
    omega
  · rw [intToStr, if_neg hv]
    have hn : (v.toNat : Int) = v := Int.toNat_of_nonneg (by omega)
    have hb : v.toNat < 10 ^ 40 := by
      have h1 : (v.toNat : Int) < 10 ^ 40 := by
        rw [hn]
        simp only [i32Max] at hmaxv
        norm_num
        omega
      exact_mod_cast h1
    obtain ⟨c, cs, hcons⟩ : ∃ c cs, natToStr v.toNat = c :: cs := by
      cases hh : natToStr v.toNat with
      | nil => exact absurd hh (natToStrGo_ne_nil 39 _)
      | cons c cs => exact ⟨c, cs, rfl⟩
    have hcm : c ∈ natToStr v.toNat := by rw [hcons]; simp
    obtain ⟨d, hd10, hcd⟩ := natToStrGo_mem hb c hcm
    have hc1 : c ≠ '+' := by subst hcd; interval_cases d <;> decide
    have hc2 : c ≠ '-' := by subst hcd; interval_cases d <;> decide
    have hgo := @parseI32Go_natToStrGo_pos 40 v.toNat 0 hb le_rfl
      (by
        simp only [zero_mul, zero_add, i32Max] at *
        omega)
    rw [hcons]
    rw [show parseI32 (c :: cs) = parseI32Go false 0 (c :: cs) from by simp [parseI32, hc1, hc2]]
    rw [← hcons]
    rw [natToStr] at hcons ⊢
    rw [hgo]
    simp only [zero_mul, zero_add]
    rw [hn]

/-! ### Character-set facts about printed numerals -/

theorem natToStr_no_ws {n : Nat} (h : n < 10 ^ 40) :
    ∀ c ∈ natToStr n, isWS c = false := by
  intro c hc
  obtain ⟨d, hd, rfl⟩ := natToStrGo_mem h c hc
  interval_cases d <;> decide

theorem i32_abs_lt (m : Nat) (hm : (m : Int) ≤ 2147483648) :
    m < 10 ^ 40 := by
  have h1 : (m : Int) < 10 ^ 40 := by
    calc (m : Int) ≤ 2147483648 := hm
      _ < 10 ^ 40 := by norm_num
  exact_mod_cast h1

theorem intToStr_no_ws {v : Int} (h : inI32 v = true) :
    ∀ c ∈ intToStr v, isWS c = false := by
  have hb := h
  rw [inI32, decide_eq_true_eq] at hb
  intro c hc
  rw [intToStr] at hc
  by_cases hv : v < 0
  · rw [if_pos hv] at hc
    rcases List.mem_cons.mp hc with rfl | hc
    · decide
    · refine natToStr_no_ws (i32_abs_lt _ ?_) c hc
      simp only [i32Min] at hb
      omega
  · rw [if_neg hv] at hc
    refine natToStr_no_ws (i32_abs_lt _ ?_) c hc
    simp only [i32Max] at hb
    omega

theorem intToStr_no_space {v : Int} (h : inI32 v = true) :
    containsChar ' ' (intToStr v) = false := by
  rw [containsChar, List.any_eq_false]
  intro c hc
  have hw := intToStr_no_ws h c hc
  simp only [decide_eq_true_eq]
  intro he
  subst he
  exact absurd hw (by decide)

theorem trim_intToStr {v : Int} (h : inI32 v = true) : trim (intToStr v) = intToStr v :=
  trim_of_no_ws (intToStr_no_ws h)

/-! ### Escape and separator round trips -/

theorem escape_ne_nil (x : Char) (xs : Str) : escapeNewlines (x :: xs) ≠ [] := by
  rw [escapeNewlines]
  by_cases hx : x = '\n' <;> simp [hx]

theorem escape_head_eq_n {rest : Str}
    (hh : (escapeNewlines rest).head? = some 'n') : rest.head? = some 'n' := by
  cases rest with
  | nil => simp [escapeNewlines] at hh
  | cons d r =>
    rw [escapeNewlines] at hh
    by_cases hd : d = '\n'
    · rw [if_pos hd] at hh
      simp only [List.head?_cons] at hh
      exact absurd (Option.some.inj hh) (by decide)
    · rw [if_neg hd] at hh
      simpa using hh

theorem unescape_cons_escape (c : Char) (rest : Str)
    (hne : ¬(c = '\\' ∧ (escapeNewlines rest).head? = some 'n')) :
    unescapeNewlines (c :: escapeNewlines rest) =
      c :: unescapeNewlines (escapeNewlines rest) := by
  cases he : escapeNewlines rest with
  | nil => rfl
  | cons e1 etail =>
    rw [unescapeNewlines]
    rw [if_neg (by
      intro ⟨hc, hen⟩
      exact hne ⟨hc, by rw [he]; simpa using hen⟩)]

theorem unescape_escape : ∀ (s : Str), hasEscSeq s = false →
    unescapeNewlines (escapeNewlines s) = s
  | [], _ => rfl
  | c :: rest, h => by
    have hr : hasEscSeq rest = false := by
      cases rest with
      | nil => rfl
      | cons d rest' =>
        rw [hasEscSeq] at h
        exact (Bool.or_eq_false_iff.mp h).2
    by_cases hc : c = '\n'
    · subst hc
      rw [escapeNewlines, if_pos rfl]
      rw [show unescapeNewlines ('\\' :: 'n' :: escapeNewlines rest) =
          '\n' :: unescapeNewlines (escapeNewlines rest) from by
        rw [unescapeNewlines]
        simp]
      rw [unescape_escape rest hr]
    · rw [escapeNewlines, if_neg hc]
      rw [unescape_cons_escape c rest (by
        intro ⟨hcb, hhead⟩
        subst hcb
        have hrn : rest.head? = some 'n' := escape_head_eq_n hhead
        cases rest with
        | nil => simp at hrn
        | cons d rest' =>
          simp only [List.head?_cons] at hrn
          have hd : d = 'n' := Option.some.inj hrn
          subst hd
          rw [hasEscSeq] at h
          simp at h)]
      rw [unescape_escape rest hr]

theorem splitCommaSpace_of_not_contains : ∀ (x : Str), containsCommaSpace x = false →
    splitCommaSpace x = [x]
  | [], _ => rfl
  | [c], _ => rfl
  | c :: d :: rest, h => by
    rw [containsCommaSpace] at h
    obtain ⟨h1, h2⟩ := Bool.or_eq_false_iff.mp h
    rw [splitCommaSpace, if_neg (by simpa using h1)]
    rw [splitCommaSpace_of_not_contains (d :: rest) h2]

theorem splitCommaSpace_append : ∀ (x : Str) (r : Str), containsCommaSpace x = false →
    splitCommaSpace (x ++ ',' :: ' ' :: r) = x :: splitCommaSpace r
  | [], r, _ => by
    rw [List.nil_append, splitCommaSpace, if_pos ⟨rfl, rfl⟩]
  | [c], r, _ => by
    rw [List.cons_append, List.nil_append, splitCommaSpace,
      if_neg (by intro hcd; exact absurd hcd.2 (by decide))]
    rw [splitCommaSpace, if_pos ⟨rfl, rfl⟩]
  | c :: d :: rest, r, h => by
    rw [containsCommaSpace] at h
    obtain ⟨h1, h2⟩ := Bool.or_eq_false_iff.mp h
    rw [List.cons_append, List.cons_append, splitCommaSpace, if_neg (by simpa using h1)]
    rw [show (rest ++ ',' :: ' ' :: r) = rest ++ ',' :: ' ' :: r from rfl]
    have ih := splitCommaSpace_append (d :: rest) r h2
    rw [List.cons_append] at ih
    rw [ih]

theorem splitCommaSpace_joinSep (l : List Str) (h : ∀ x ∈ l, containsCommaSpace x = false)
    (hn : l ≠ []) : splitCommaSpace (joinSep (',' :: [' ']) l) = l := by
  induction l with
  | nil => exact absurd rfl hn
  | cons x t ih =>
    cases t with
    | nil =>
      rw [joinSep]
      exact splitCommaSpace_of_not_contains x (h x (by simp))
    | cons y t' =>
      rw [joinSep]
      rw [show (x ++ (',' :: [' ']) ++ joinSep (',' :: [' ']) (y :: t')) =
        x ++ ',' :: ' ' :: joinSep (',' :: [' ']) (y :: t') from by simp]
      rw [splitCommaSpace_append x _ (h x (by simp))]
      rw [ih (fun z hz => h z (by simp [hz])) (by simp)]

theorem splitOnceTo_append : ∀ (x : Str) (y : Str), containsChar ' ' x = false →
    splitOnceTo (x ++ (" to ").data ++ y) = some (x, y)
  | [], y, _ => rfl
  | c :: x', y, h => by
    rw [containsChar, List.any_cons, Bool.or_eq_false_iff] at h
    obtain ⟨h1, h2⟩ := h
    rw [List.cons_append, List.cons_append, splitOnceTo]
    rw [show (if c = ' ' then dropPre ['t', 'o', ' '] (x' ++ (" to ").data ++ y) else none) =
      none from by rw [if_neg (by simpa using h1)]]
    rw [splitOnceTo_append x' y (by rw [containsChar]; exact h2)]
    rfl

/-! ### Well-formedness for the render/re-parse round trip -/

/-- The `is_flags` mode the renderer's flags-marker line will have set by the
time the entry line is reached. -/
def isFlagsVal : Value → Bool
  | .Flags _ _ => true
  | _ => false

/-- The range strings carried by the rendered range comment (what re-parsing
stores in the builder's `range` field). -/
def rangeStrs : Value → Option (Str × Str)
  | .Int n => n.range.map (fun p => (intToStr p.1, intToStr p.2))
  | .Float n => n.range.map (fun p => (formatF32 p.1, formatF32 p.2))
  | _ => none

/-- Conditions under which a rendered value parses back to itself under its
own inferred type, options, range strings and flags mode: i32 bounds for
integers (and range bounds), no literal `\n` escape in strings, exact decimal
round trip for floats (the one part of `f32` behaviour the model does not
re-prove), options free of the `", "` separator with first-match index
conditions for enum/flags, and `"0"` not an option of an empty flag set. -/
def wfValue : Value → Bool
  | .Bool _ => true
  | .String s => !hasEscSeq s
  | .Int n =>
    inI32 n.value &&
    (match n.range with
     | some (a, b) => inI32 a && inI32 b
     | none => true)
  | .Float n =>
    decide (parse_num_f32 (formatF32 n.value) (rangeStrs (.Float n)) = .ok n) &&
    (match n.range with
     | some (a, b) =>
       decide (splitOnceTo (formatF32 a ++ (" to ").data ++ formatF32 b) =
         some (formatF32 a, formatF32 b))
     | none => true)
  | .Enum i opts =>
    decide (opts ≠ []) && opts.all (fun o => !containsCommaSpace o) &&
    decide (position (opts.getD i []) opts = some i)
  | .Flags is opts =>
    decide (opts ≠ []) && opts.all (fun o => !containsCommaSpace o) &&
    is.all (fun i => decide (position (opts.getD i []) opts = some i)) &&
    (!decide (is = []) || !decide ((['0'] : Str) ∈ opts))

/-- Compatibility of a default with its entry's value: same shape, same
options and range, and itself able to parse back from its rendered text. -/
def defaultCompat : Option Value → Value → Bool
  | none, _ => true
  | some (.Bool _), .Bool _ => true
  | some (.String ds), .String _ => !hasEscSeq ds
  | some (.Int dn), .Int n => decide (dn.range = n.range) && inI32 dn.value
  | some (.Float dn), .Float n =>
    decide (dn.range = n.range) &&
    decide (parse_num_f32 (formatF32 dn.value) (rangeStrs (.Float n)) = .ok dn)
  | some (.Enum di dopts), .Enum _ opts =>
    decide (dopts = opts) && decide (position (opts.getD di []) opts = some di)
  | some (.Flags dis dopts), .Flags _ opts =>
    decide (dopts = opts) &&
    dis.all (fun i => decide (position (opts.getD i []) opts = some i)) &&
    (!decide (dis = []) || !decide ((['0'] : Str) ∈ opts))
  | _, _ => false

/-- The rendered `name = value` line of an entry. -/
def entryLineOf (e : Entry) : Str := e.name ++ (" = ").data ++ value_to_string e.value

/-- Description well-formedness: every line is nonempty, trim-stable, free of
carriage returns, and classifies as a plain description line when re-read. -/
def wfDesc : Option Str → Bool
  | none => true
  | some d =>
    (splitOnChar '\n' d).all (fun L =>
      decide (L ≠ []) && decide (trim L = L) && !containsChar '\r' L &&
      decide (classify ((("## ").data) ++ L) = .desc))

/-- Entry well-formedness: the rendered entry line reads back as an entry
line with the same name and value text, and description, value and default
satisfy their conditions. -/
def wfEntry (e : Entry) : Bool :=
  decide (classify (entryLineOf e) = .entryLine e.name (value_to_string e.value)) &&
  wfDesc e.description && wfValue e.value && defaultCompat e.default e.value

def wfMetadata : Option Metadata → Bool
  | none => true
  | some m => !containsChar ' ' m.mod_version

/-- Document well-formedness for the round-trip theorems: sane metadata
version, well-formed entries, and rendered lines free of embedded newlines
and trailing carriage returns. -/
def WfFileData (fd : FileData) : Bool :=
  wfMetadata fd.metadata &&
  fd.sections.all (fun s => s.entries.all wfEntry) &&
  (writeLines fd).all (fun l => !containsChar '\n' l && decide (l.getLast? ≠ some '\r'))

/-! ### Line classification and dispatch lemmas -/

theorem classify_setting_type (t : Str) :
    classify ((("# Setting type: ").data) ++ t) =
      .hashMeta ((("Setting type: ").data) ++ t) := rfl

theorem classify_default_some (t : Str) :
    classify ((("# Default value: ").data) ++ t) =
      .hashMeta ((("Default value: ").data) ++ t) := rfl

theorem classify_acceptable (t : Str) :
    classify ((("# Acceptable values: ").data) ++ t) =
      .hashMeta ((("Acceptable values: ").data) ++ t) := rfl

theorem classify_range_line (t : Str) :
    classify ((("# Acceptable value range: From ").data) ++ t) =
      .hashMeta ((("Acceptable value range: From ").data) ++ t) := rfl

theorem classify_meta_line (s : Str) :
    classify ((("## Settings file was created by plugin ").data) ++ s) = .metaHeader := rfl

theorem classify_section_line (name : Str) :
    classify (('[' :: name) ++ [']']) = .sectionHeader name := by
  rw [classify]
  rw [if_neg (by simp)]
  rw [if_neg (by
    rw [show startsWith (("## Settings file was created by plugin ").data)
      (('[' :: name) ++ [']']) = false from rfl]
    exact Bool.false_ne_true)]
  rw [if_pos ⟨rfl, List.getLast?_concat _⟩]
  rw [show (('[' :: name) ++ [']']).drop 1 = name ++ [']'] from rfl]
  rw [show (name ++ [']']).dropLast = name from List.dropLast_concat]

theorem applyHashMeta_type (b : EntryBuilder) (t : Str) :
    applyHashMeta b ((("Setting type: ").data) ++ t) = { b with type_name := some t } := rfl

theorem applyHashMeta_default_some (b : EntryBuilder) (t : Str) :
    applyHashMeta b ((("Default value: ").data) ++ t) = { b with default_value := some t } := rfl

theorem applyHashMeta_default_none (b : EntryBuilder) :
    applyHashMeta b (("Default value:").data) = { b with default_value := none } := rfl

theorem applyHashMeta_acceptable (b : EntryBuilder) (t : Str) :
    applyHashMeta b ((("Acceptable values: ").data) ++ t) =
      { b with acceptable_values := some (splitCommaSpace t) } := rfl

theorem applyHashMeta_range (b : EntryBuilder) (t mn mx : Str)
    (h : splitOnceTo t = some (mn, mx)) :
    applyHashMeta b ((("Acceptable value range: From ").data) ++ t) =
      { b with range := some (mn, mx) } := by
  have he : applyHashMeta b ((("Acceptable value range: From ").data) ++ t) =
      match splitOnceTo t with
      | some (mn', mx') => { b with range := some (mn', mx') }
      | none => b := rfl
  rw [he, h]

theorem step_empty (rest : List Str) (st : ParseState) :
    parse_reader ([] :: rest) st = parse_reader rest st := rfl

theorem step_desc {l : Str} (rest : List Str) (st : ParseState) (h : classify l = .desc) :
    parse_reader (l :: rest) st =
      parse_reader rest
        { st with pending_desc_lines := st.pending_desc_lines ++ [trim (trimStartHashes l)] } := by
  rw [parse_reader.eq_def]
  simp only [h]

theorem step_hashMeta {l meta : Str} (rest : List Str) (st : ParseState)
    (h : classify l = .hashMeta meta) :
    parse_reader (l :: rest) st =
      parse_reader rest
        { st with
          pending_builder := some (applyHashMeta (st.pending_builder.getD EntryBuilder.empty) meta) } := by
  rw [parse_reader.eq_def]
  simp only [h]

theorem step_flagsMarker {l : Str} (rest : List Str) (st : ParseState)
    (h : classify l = .flagsMarker) :
    parse_reader (l :: rest) st =
      parse_reader rest
        { st with
          pending_builder := some { st.pending_builder.getD EntryBuilder.empty with is_flags := true } } := by
  rw [parse_reader.eq_def]
  simp only [h]

theorem step_section_some {l nm : Str} (rest : List Str) (st : ParseState) (cur : Section)
    (h : classify l = .sectionHeader nm) (hcur : st.current_section = some cur) :
    parse_reader (l :: rest) st =
      parse_reader rest
        { st with sections := st.sections ++ [cur], current_section := some ⟨nm, []⟩ } := by
  rw [parse_reader.eq_def]
  simp only [h, hcur]

theorem step_section_none {l nm : Str} (rest : List Str) (st : ParseState)
    (h : classify l = .sectionHeader nm) (hcur : st.current_section = none) :
    parse_reader (l :: rest) st =
      parse_reader rest { st with current_section := some ⟨nm, []⟩ } := by
  rw [parse_reader.eq_def]
  simp only [h, hcur]

theorem step_entryLine {l n v : Str} (rest : List Str) (st : ParseState)
    (h : classify l = .entryLine n v) :
    parse_reader (l :: rest) st =
      match applyEntryLine st n v with
      | .ok st' => parse_reader rest st'
      | .error e => .error e := by
  rw [parse_reader.eq_def]
  simp only [h]

theorem step_metaHeader {l : Str} {nm ver : Str} (g : Str) (rest : List Str) (st : ParseState)
    (h : classify l = .metaHeader) (hr : read_metadata_line l = some (nm, ver)) :
    parse_reader (l :: g :: rest) st =
      parse_reader rest
        { st with
          metadata := some ⟨nm, ver, (dropPre (("## Plugin GUID: ").data) g).getD []⟩ } := by
  rw [parse_reader.eq_def]
  simp only [h, hr]

theorem read_metadata_line_append (n v : Str) (hv : containsChar ' ' v = false) :
    read_metadata_line ((("## Settings file was created by plugin ").data) ++ (n ++ ' ' :: v)) =
      some (n, v) := by
  rw [read_metadata_line]
  rw [dropPre_append]
  simp only [Option.bind_eq_bind, Option.some_bind]
  rw [splitOnChar_append_cons, splitOnChar_eq_single hv]
  have hne : splitOnChar ' ' n ≠ [] := splitOnChar_ne_nil ' ' n
  rw [if_neg (by
    simp only [List.length_append, List.length_cons, List.length_nil, not_lt]
    have := List.length_pos.mpr hne
    omega)]
  rw [show (splitOnChar ' ' n ++ [v]).getLast? = some v from List.getLast?_concat _]
  simp only [Option.some_bind]
  rw [show (splitOnChar ' ' n ++ [v]).dropLast = splitOnChar ' ' n from List.dropLast_concat]
  rw [joinSep_splitOnChar]

/-! ### Value-level round trips -/

/-- The type name the renderer writes for a value (the `Value` side of
`infer_type_name`). -/
def typeNameOf : Value → Str
  | .Bool _ => ("Boolean").data
  | .String _ => ("String").data
  | .Int _ => ("Int32").data
  | .Float _ => ("Single").data
  | .Enum _ _ => ("String").data
  | .Flags _ _ => ("String").data

/-- The option list attached to an enum-like value (`value_options` on the
`Value` itself). -/
def valOptions : Value → Option (List Str)
  | .Enum _ options => some options
  | .Flags _ options => some options
  | _ => none

theorem position_lt_length {t : Str} : ∀ {l : List Str} {i : Nat},
    position t l = some i → i < l.length := by
  intro l
  induction l with
  | nil => intro i h; simp [position] at h
  | cons o os ih =>
    intro i h
    by_cases ho : o = t
    · simp [position, ho] at h
      simp only [List.length_cons]
      omega
    · simp [position, ho] at h
      obtain ⟨j, hj, rfl⟩ := h
      have := ih hj
      simp only [List.length_cons]
      omega

theorem get?_eq_some_getD {α : Type} {d : α} : ∀ {l : List α} {i : Nat},
    i < l.length → l.get? i = some (l.getD i d) := by
  intro l
  induction l with
  | nil => intro i h; simp at h
  | cons x xs ih =>
    intro i h
    match i with
    | 0 => rfl
    | i + 1 =>
      simp only [List.length_cons, Nat.add_lt_add_iff_right] at h
      show xs.get? i = some (xs.getD i d)
      exact ih h

theorem filterMap_of_forall_some {g : Nat → Option Nat} : ∀ {l : List Nat},
    (∀ i ∈ l, g i = some i) → l.filterMap g = l := by
  intro l
  induction l with
  | nil => intro _; rfl
  | cons x xs ih =>
    intro h
    rw [List.filterMap_cons, h x (by simp)]
    rw [ih (fun i hi => h i (by simp [hi]))]

theorem filterMap_get?_eq_map (opts : List Str) : ∀ (l : List Nat),
    (∀ i ∈ l, i < opts.length) →
    l.filterMap (fun i => opts.get? i) = l.map (fun i => opts.getD i []) := by
  intro l
  induction l with
  | nil => intro _; rfl
  | cons k ks ih =>
    intro h
    rw [List.filterMap_cons, List.map_cons,
      get?_eq_some_getD (h k (by simp)), ih (fun i hi => h i (by simp [hi]))]

theorem parse_num_i32_general (w : Int) (rg : Option (Int × Int)) (hw : inI32 w = true)
    (hr : match rg with
          | some (a, b) => inI32 a = true ∧ inI32 b = true
          | none => True) :
    parse_num_i32 (intToStr w) (rg.map (fun p => (intToStr p.1, intToStr p.2))) =
      .ok ⟨w, rg⟩ := by
  cases rg with
  | none =>
    rw [parse_num_i32, trim_intToStr hw, parseI32_intToStr hw]
    rfl
  | some p =>
    obtain ⟨a, b⟩ := p
    obtain ⟨ha, hb⟩ := hr
    rw [parse_num_i32, trim_intToStr hw, parseI32_intToStr hw]
    show (do
      let mn' ← parseI32 (trim (intToStr a))
      let mx' ← parseI32 (trim (intToStr b))
      pure (⟨w, some (mn', mx')⟩ : Num Int)) = Except.ok ⟨w, some (a, b)⟩
    rw [trim_intToStr ha, parseI32_intToStr ha, trim_intToStr hb, parseI32_intToStr hb]
    rfl

theorem parse_value_roundtrip (v : Value) (hw : wfValue v = true) :
    parse_value (value_to_string v) (valOptions v) (typeNameOf v) (rangeStrs v) (isFlagsVal v) =
      .ok v := by
  cases v with
  | Bool b => cases b <;> rfl
  | String s =>
    rw [wfValue] at hw
    replace hw : hasEscSeq s = false := by
      revert hw
      cases hasEscSeq s <;> simp
    show parse_simple_value (escapeNewlines s) (("String").data) (rangeStrs (.String s)) =
      .ok (.String s)
    rw [show parse_simple_value (escapeNewlines s) (("String").data) (rangeStrs (.String s)) =
      .ok (.String (unescapeNewlines (escapeNewlines s))) from rfl]
    rw [unescape_escape s hw]
  | Int n =>
    obtain ⟨w, rg⟩ := n
    rw [wfValue, Bool.and_eq_true] at hw
    obtain ⟨hw1, hw2⟩ := hw
    show parse_simple_value (intToStr w) (("Int32").data) (rangeStrs (.Int ⟨w, rg⟩)) =
      .ok (.Int ⟨w, rg⟩)
    rw [show parse_simple_value (intToStr w) (("Int32").data) (rangeStrs (.Int ⟨w, rg⟩)) =
      (parse_num_i32 (intToStr w) (rangeStrs (.Int ⟨w, rg⟩))).map .Int from rfl]
    rw [show rangeStrs (.Int ⟨w, rg⟩) = rg.map (fun p => (intToStr p.1, intToStr p.2)) from rfl]
    rw [parse_num_i32_general w rg hw1 (by
      cases rg with
      | none => trivial
      | some p =>
        obtain ⟨a, b⟩ := p
        exact (Bool.and_eq_true _ _).mp hw2)]
    rfl
  | Float n =>
    rw [wfValue, Bool.and_eq_true] at hw
    have h1 := of_decide_eq_true hw.1
    show parse_simple_value (formatF32 n.value) (("Single").data) (rangeStrs (.Float n)) =
      .ok (.Float n)
    rw [show parse_simple_value (formatF32 n.value) (("Single").data) (rangeStrs (.Float n)) =
      (parse_num_f32 (formatF32 n.value) (rangeStrs (.Float n))).map .Float from rfl]
    rw [h1]
    rfl
  | Enum i opts =>
    rw [wfValue, Bool.and_eq_true, Bool.and_eq_true] at hw
    have hpos := of_decide_eq_true hw.2
    show Except.ok (parse_enum (opts.getD i []) opts false) = .ok (.Enum i opts)
    rw [parse_enum, if_neg (by simp), hpos]
    rfl
  | Flags is opts =>
    cases is with
    | nil =>
      rw [wfValue, Bool.and_eq_true, Bool.and_eq_true, Bool.and_eq_true] at hw
      obtain ⟨-, hzero⟩ := hw
      have hz : (['0'] : Str) ∉ opts := by
        revert hzero
        by_cases hm : (['0'] : Str) ∈ opts
        · simp [hm]
        · intro _; exact hm
      show Except.ok (parse_enum (['0'] : Str) opts true) = .ok (.Flags [] opts)
      rw [parse_enum, if_pos rfl]
      rw [show splitCommaSpace (['0'] : Str) = [(['0'] : Str)] from rfl]
      rw [List.filterMap_cons, position_eq_none_of_not_mem hz]
      rfl
    | cons j is' =>
      rw [wfValue, Bool.and_eq_true, Bool.and_eq_true, Bool.and_eq_true] at hw
      obtain ⟨⟨⟨-, hnocs⟩, hall⟩, -⟩ := hw
      have hall' : ∀ i ∈ (j :: is'), position (opts.getD i []) opts = some i := by
        intro i hi
        rw [List.all_eq_true] at hall
        exact of_decide_eq_true (hall i hi)
      have hnocs' : ∀ o ∈ opts, containsCommaSpace o = false := by
        intro o ho
        rw [List.all_eq_true] at hnocs
        have h := hnocs o ho
        revert h
        cases containsCommaSpace o <;> simp
      have hlen : ∀ i ∈ (j :: is'), i < opts.length :=
        fun i hi => position_lt_length (hall' i hi)
      show Except.ok (parse_enum (value_to_string (.Flags (j :: is') opts)) opts true) =
        .ok (.Flags (j :: is') opts)
      rw [parse_enum, if_pos rfl]
      rw [value_to_string, if_neg (List.cons_ne_nil j is')]
      rw [filterMap_get?_eq_map opts (j :: is') hlen]
      rw [splitCommaSpace_joinSep _ (by
        intro x hx
        rw [List.mem_map] at hx
        obtain ⟨i, hi, rfl⟩ := hx
        exact hnocs' _ (List.get?_mem (get?_eq_some_getD (hlen i hi)))) (by simp)]
      have hcomp : (j :: is').filterMap
          ((fun v => position v opts) ∘ (fun i => opts.getD i [])) = j :: is' :=
        filterMap_of_forall_some (fun i hi => hall' i hi)
      rw [List.filterMap_map, hcomp]

/-- A compatible default parses back to itself from its rendered text under
the entry value's type, options, range strings and flags mode. -/
theorem parse_value_default_roundtrip (d v : Value) (hw : wfValue v = true)
    (hd : defaultCompat (some d) v = true) :
    parse_value (value_to_string d) (valOptions v) (typeNameOf v) (rangeStrs v) (isFlagsVal v) =
      .ok d := by
  cases v with
  | Bool b =>
    cases d with
    | Bool db => cases db <;> rfl
    | String ds => exact Bool.noConfusion hd
    | Int dn => exact Bool.noConfusion hd
    | Float dn => exact Bool.noConfusion hd
    | Enum di dopts => exact Bool.noConfusion hd
    | Flags dis dopts => exact Bool.noConfusion hd
  | String s =>
    cases d with
    | Bool db => exact Bool.noConfusion hd
    | String ds =>
      rw [defaultCompat] at hd
      replace hd : hasEscSeq ds = false := by
        revert hd
        cases hasEscSeq ds <;> simp
      show parse_simple_value (escapeNewlines ds) (("String").data) (rangeStrs (.String s)) =
        .ok (.String ds)
      rw [show parse_simple_value (escapeNewlines ds) (("String").data) (rangeStrs (.String s)) =
        .ok (.String (unescapeNewlines (escapeNewlines ds))) from rfl]
      rw [unescape_escape ds hd]
    | Int dn => exact Bool.noConfusion hd
    | Float dn => exact Bool.noConfusion hd
    | Enum di dopts => exact Bool.noConfusion hd
    | Flags dis dopts => exact Bool.noConfusion hd
  | Int n =>
    cases d with
    | Bool db => exact Bool.noConfusion hd
    | String ds => exact Bool.noConfusion hd
    | Int dn =>
      obtain ⟨dw, drg⟩ := dn
      obtain ⟨w, rg⟩ := n
      rw [defaultCompat, Bool.and_eq_true] at hd
      obtain ⟨hr, hdi⟩ := hd
      have hr' : drg = rg := of_decide_eq_true hr
      rw [hr']
      rw [wfValue, Bool.and_eq_true] at hw
      show parse_simple_value (intToStr dw) (("Int32").data) (rangeStrs (.Int ⟨w, rg⟩)) =
        .ok (.Int ⟨dw, rg⟩)
      rw [show parse_simple_value (intToStr dw) (("Int32").data) (rangeStrs (.Int ⟨w, rg⟩)) =
        (parse_num_i32 (intToStr dw) (rangeStrs (.Int ⟨w, rg⟩))).map .Int from rfl]
      rw [show rangeStrs (.Int ⟨w, rg⟩) = rg.map (fun p => (intToStr p.1, intToStr p.2)) from rfl]
      rw [parse_num_i32_general dw rg hdi (by
        cases rg with
        | none => trivial
        | some p =>
          obtain ⟨a, b⟩ := p
          exact (Bool.and_eq_true _ _).mp hw.2)]
      rfl
    | Float dn1 => exact Bool.noConfusion hd
    | Enum di dopts => exact Bool.noConfusion hd
    | Flags dis dopts => exact Bool.noConfusion hd
  | Float n =>
    cases d with
    | Bool db => exact Bool.noConfusion hd
    | String ds => exact Bool.noConfusion hd
    | Int dn => exact Bool.noConfusion hd
    | Float dn =>
      rw [defaultCompat, Bool.and_eq_true] at hd
      have hdp := of_decide_eq_true hd.2
      show parse_simple_value (formatF32 dn.value) (("Single").data) (rangeStrs (.Float n)) =
        .ok (.Float dn)
      rw [show parse_simple_value (formatF32 dn.value) (("Single").data) (rangeStrs (.Float n)) =
        (parse_num_f32 (formatF32 dn.value) (rangeStrs (.Float n))).map .Float from rfl]
      rw [hdp]
      rfl
    | Enum di dopts => exact Bool.noConfusion hd
    | Flags dis dopts => exact Bool.noConfusion hd
  | Enum i opts =>
    cases d with
    | Bool db => exact Bool.noConfusion hd
    | String ds => exact Bool.noConfusion hd
    | Int dn => exact Bool.noConfusion hd
    | Float dn => exact Bool.noConfusion hd
    | Enum di dopts =>
      rw [defaultCompat, Bool.and_eq_true] at hd
      obtain ⟨hde, hdp⟩ := hd
      have hde' : dopts = opts := of_decide_eq_true hde
      rw [hde']
      have hdp' := of_decide_eq_true hdp
      show Except.ok (parse_enum (opts.getD di []) opts false) = .ok (.Enum di opts)
      rw [parse_enum, if_neg (by simp), hdp']
      rfl
    | Flags dis dopts => exact Bool.noConfusion hd
  | Flags is opts =>
    cases d with
    | Bool db => exact Bool.noConfusion hd
    | String ds => exact Bool.noConfusion hd
    | Int dn => exact Bool.noConfusion hd
    | Float dn => exact Bool.noConfusion hd
    | Enum di dopts => exact Bool.noConfusion hd
    | Flags dis dopts =>
      rw [defaultCompat, Bool.and_eq_true, Bool.and_eq_true] at hd
      obtain ⟨⟨hde, hall⟩, hzero⟩ := hd
      have hde' : dopts = opts := of_decide_eq_true hde
      rw [hde']
      rw [wfValue, Bool.and_eq_true, Bool.and_eq_true, Bool.and_eq_true] at hw
      obtain ⟨⟨⟨-, hnocs⟩, -⟩, -⟩ := hw
      cases dis with
      | nil =>
        have hz : (['0'] : Str) ∉ opts := by
          revert hzero
          by_cases hm : (['0'] : Str) ∈ opts
          · simp [hm]
          · intro _; exact hm
        show Except.ok (parse_enum (['0'] : Str) opts true) = .ok (.Flags [] opts)
        rw [parse_enum, if_pos rfl]
        rw [show splitCommaSpace (['0'] : Str) = [(['0'] : Str)] from rfl]
        rw [List.filterMap_cons, position_eq_none_of_not_mem hz]
        rfl
      | cons j is' =>
        have hall' : ∀ i ∈ (j :: is'), position (opts.getD i []) opts = some i := by
          intro i hi
          rw [List.all_eq_true] at hall
          exact of_decide_eq_true (hall i hi)
        have hnocs' : ∀ o ∈ opts, containsCommaSpace o = false := by
          intro o ho
          rw [List.all_eq_true] at hnocs
          have h := hnocs o ho
          revert h
          cases containsCommaSpace o <;> simp
        have hlen : ∀ i ∈ (j :: is'), i < opts.length :=
          fun i hi => position_lt_length (hall' i hi)
        show Except.ok (parse_enum (value_to_string (.Flags (j :: is') opts)) opts true) =
          .ok (.Flags (j :: is') opts)
        rw [parse_enum, if_pos rfl]
        rw [value_to_string, if_neg (List.cons_ne_nil j is')]
        rw [filterMap_get?_eq_map opts (j :: is') hlen]
        rw [splitCommaSpace_joinSep _ (by
          intro x hx
          rw [List.mem_map] at hx
          obtain ⟨i, hi, rfl⟩ := hx
          exact hnocs' _ (List.get?_mem (get?_eq_some_getD (hlen i hi)))) (by simp)]
        have hcomp : (j :: is').filterMap
            ((fun v => position v opts) ∘ (fun i => opts.getD i [])) = j :: is' :=
          filterMap_of_forall_some (fun i hi => hall' i hi)
        rw [List.filterMap_map, hcomp]

/-- The builder produced by re-reading a rendered entry builds back exactly
the entry (same name, description, type name, default and value). -/
theorem build_roundtrip (name : Str) (descr : Option Str) (dflt : Option Value) (v : Value)
    (hw : wfValue v = true) (hd : defaultCompat dflt v = true) :
    (EntryBuilder.mk descr (some (typeNameOf v)) (dflt.map value_to_string) (valOptions v)
      (isFlagsVal v) (rangeStrs v) (some name) (some (value_to_string v))).build =
      .ok ⟨name, descr, typeNameOf v, dflt, v⟩ := by
  have hv := parse_value_roundtrip v hw
  cases dflt with
  | none =>
    show Except.bind (parse_value (value_to_string v) (valOptions v) (typeNameOf v) (rangeStrs v)
      (isFlagsVal v)) (fun value =>
        Except.ok (⟨name, descr, typeNameOf v, none, value⟩ : ParsedEntry)) =
      .ok ⟨name, descr, typeNameOf v, none, v⟩
    rw [hv]
    rfl
  | some d =>
    have hdft := parse_value_default_roundtrip d v hw hd
    show Except.bind (Except.map some (parse_value (value_to_string d) (valOptions v)
        (typeNameOf v) (rangeStrs v) (isFlagsVal v))) (fun df =>
        Except.bind (parse_value (value_to_string v) (valOptions v) (typeNameOf v) (rangeStrs v)
          (isFlagsVal v)) (fun value =>
            Except.ok (⟨name, descr, typeNameOf v, df, value⟩ : ParsedEntry))) =
      .ok ⟨name, descr, typeNameOf v, some d, v⟩
    rw [hdft]
    show Except.bind (parse_value (value_to_string v) (valOptions v) (typeNameOf v) (rangeStrs v)
      (isFlagsVal v)) (fun value =>
        Except.ok (⟨name, descr, typeNameOf v, some d, value⟩ : ParsedEntry)) =
      .ok ⟨name, descr, typeNameOf v, some d, v⟩
    rw [hv]
    rfl

/-! ### Replaying the rendered lines -/

theorem bool_not_eq_true {b : Bool} (h : (!b) = true) : b = false := by
  cases b with
  | false => rfl
  | true => exact Bool.noConfusion h

theorem mem_of_getLast?Eq {α : Type} {a : α} : ∀ {l : List α}, l.getLast? = some a → a ∈ l := by
  intro l
  induction l with
  | nil => intro h; simp at h
  | cons x xs ih =>
    intro h
    cases xs with
    | nil =>
      simp at h
      simp [h]
    | cons y ys =>
      rw [List.getLast?_cons_cons] at h
      exact List.mem_cons_of_mem x (ih h)

theorem dropLast_concat_getLast {α : Type} {a : α} : ∀ {l : List α},
    l.getLast? = some a → l.dropLast ++ [a] = l := by
  intro l
  induction l with
  | nil => intro h; simp at h
  | cons x xs ih =>
    intro h
    cases xs with
    | nil =>
      simp at h
      simp [h]
    | cons y ys =>
      rw [List.getLast?_cons_cons] at h
      rw [List.dropLast_cons₂, List.cons_append, ih h]

theorem rstrip_cr_eq_self {l : Str} (h : l.getLast? ≠ some '\r') :
    (l.reverse.dropWhile (fun c => c = '\r')).reverse = l := by
  cases hr : l.reverse with
  | nil =>
    have h0 : l = [] := by simpa using congrArg List.reverse hr
    simp [h0]
  | cons c t =>
    have hc : c ≠ '\r' := by
      intro hcc
      subst hcc
      exact h (by rw [← List.head?_reverse, hr]; rfl)
    rw [List.dropWhile_cons, if_neg (by simp [hc]), ← hr, List.reverse_reverse]

theorem splitOnChar_joinSep (c : Char) : ∀ (L : List Str), L ≠ [] →
    (∀ x ∈ L, containsChar c x = false) →
    splitOnChar c (joinSep [c] L) = L
  | [], hne, _ => absurd rfl hne
  | [x], _, h => by
    rw [show joinSep [c] [x] = x from rfl]
    exact splitOnChar_eq_single (h x (by simp))
  | x :: y :: t, _, h => by
    rw [show joinSep [c] (x :: y :: t) = x ++ [c] ++ joinSep [c] (y :: t) from rfl]
    rw [show x ++ [c] ++ joinSep [c] (y :: t) = x ++ c :: joinSep [c] (y :: t) from by simp]
    rw [splitOnChar_append_cons]
    rw [splitOnChar_eq_single (h x (by simp))]
    rw [splitOnChar_joinSep c (y :: t) (by simp) (fun z hz => h z (by simp [hz]))]
    rfl

/-- A trailing empty line is a no-op for the parser loop (the `metaHeader`
branch that eats a second line treats a missing line and an empty line the
same way: both leave the GUID empty). -/
theorem parse_reader_append_blank : ∀ (xs : List Str) (st : ParseState),
    parse_reader (xs ++ [[]]) st = parse_reader xs st
  | [], st => by
    rw [List.nil_append, step_empty]
  | l :: xs, st => by
    rw [List.cons_append]
    cases hc : classify l with
    | empty =>
      rw [parse_reader.eq_def]
      simp only [hc]
      conv_rhs => rw [parse_reader.eq_def]
      simp only [hc]
      exact parse_reader_append_blank xs st
    | metaHeader =>
      rw [parse_reader.eq_def]
      simp only [hc]
      conv_rhs => rw [parse_reader.eq_def]
      simp only [hc]
      cases hr : read_metadata_line l with
      | none => exact parse_reader_append_blank xs st
      | some p =>
        obtain ⟨nm, ver⟩ := p
        cases xs with
        | nil => rfl
        | cons g xs2 =>
          rw [List.cons_append]
          exact parse_reader_append_blank xs2 _
    | sectionHeader nm =>
      rw [parse_reader.eq_def]
      simp only [hc]
      conv_rhs => rw [parse_reader.eq_def]
      simp only [hc]
      exact parse_reader_append_blank xs _
    | desc =>
      rw [step_desc _ _ hc, step_desc _ _ hc]
      exact parse_reader_append_blank xs _
    | flagsMarker =>
      rw [step_flagsMarker _ _ hc, step_flagsMarker _ _ hc]
      exact parse_reader_append_blank xs _
    | hashMeta meta =>
      rw [step_hashMeta _ _ hc, step_hashMeta _ _ hc]
      exact parse_reader_append_blank xs _
    | entryLine nm v =>
      rw [step_entryLine _ _ hc, step_entryLine _ _ hc]
      cases happ : applyEntryLine st nm v with
      | ok st1 => exact parse_reader_append_blank xs st1
      | error er => rfl
    | skip =>
      rw [parse_reader.eq_def]
      simp only [hc]
      conv_rhs => rw [parse_reader.eq_def]
      simp only [hc]
      exact parse_reader_append_blank xs st

/-- Reading back the joined rendered lines replays the parser on exactly
those lines, provided no line embeds a newline or ends in a carriage
return. -/
theorem parse_reader_rustReadLines (L : List Str) (st : ParseState)
    (h1 : ∀ l ∈ L, containsChar '\n' l = false)
    (h2 : ∀ l ∈ L, l.getLast? ≠ some '\r')
    (hne : L ≠ []) :
    parse_reader (rustReadLines (joinSep ['\n'] L)) st = parse_reader L st := by
  have hsplit : splitOnChar '\n' (joinSep ['\n'] L) = L := splitOnChar_joinSep '\n' L hne h1
  have hmap : ∀ (M : List Str), (∀ l ∈ M, l.getLast? ≠ some '\r') →
      M.map (fun l => (l.reverse.dropWhile (fun c => c = '\r')).reverse) = M := by
    intro M hM
    rw [List.map_congr_left (fun l hl => rstrip_cr_eq_self (hM l hl))]
    exact List.map_id' M
  simp only [rustReadLines, hsplit]
  by_cases hlast : L.getLast? = some []
  · rw [if_pos hlast]
    rw [hmap _ (fun l hl => h2 l (List.dropLast_subset _ hl))]
    conv_rhs => rw [← dropLast_concat_getLast hlast]
    rw [parse_reader_append_blank]
  · rw [if_neg hlast]
    rw [hmap _ h2]

theorem getLast?_ne_of_not_contains {c : Char} {l : Str} (h : containsChar c l = false) :
    l.getLast? ≠ some c := by
  intro hl
  rw [containsChar, List.any_eq_false] at h
  exact h c (mem_of_getLast?Eq hl) (by simp)

theorem trimStartHashes_desc (L : Str) :
    trimStartHashes ((("## ").data) ++ L) = ' ' :: L := by
  show trimStartHashes ('#' :: '#' :: ' ' :: L) = ' ' :: L
  rw [trimStartHashes, if_pos ⟨rfl, rfl⟩]
  cases L with
  | nil => rfl
  | cons c t =>
    rw [trimStartHashes, if_neg (by simp)]

theorem trim_desc_line (L : Str) (ht : trim L = L) :
    trim (trimStartHashes ((("## ").data) ++ L)) = L := by
  rw [trimStartHashes_desc, trim_cons_ws (by decide) L, ht]

/-- Replaying a run of `## `-prefixed description lines appends the stripped
texts to the pending description buffer. -/
theorem desc_replay : ∀ (ls : List Str) (rest : List Str) (st : ParseState),
    (∀ L ∈ ls, classify ((("## ").data) ++ L) = LineKind.desc ∧ trim L = L) →
    parse_reader ((ls.map (fun l => (("## ").data) ++ l)) ++ rest) st =
      parse_reader rest
        { st with pending_desc_lines := st.pending_desc_lines ++ ls }
  | [], rest, st, _ => by
    rw [List.map_nil, List.nil_append]
    rw [show st.pending_desc_lines ++ [] = st.pending_desc_lines from List.append_nil _]
  | L :: ls, rest, st, h => by
    rw [List.map_cons, List.cons_append]
    rw [step_desc _ _ (h L (by simp)).1]
    rw [trim_desc_line L (h L (by simp)).2]
    rw [desc_replay ls rest _ (fun x hx => h x (by simp [hx]))]
    rw [List.append_cons st.pending_desc_lines L ls]

/-- For a well-formed description no split piece is empty or ends in `\r`,
so the `lines()` view is exactly the `\n`-split. -/
theorem rustLines_eq_split (d : Str) (h : wfDesc (some d) = true) :
    rustLines d = splitOnChar '\n' d := by
  rw [wfDesc, List.all_eq_true] at h
  have hpieces : ∀ L ∈ splitOnChar '\n' d, L ≠ [] ∧ containsChar '\r' L = false := by
    intro L hL
    have hh := h L hL
    rw [Bool.and_eq_true, Bool.and_eq_true, Bool.and_eq_true] at hh
    exact ⟨of_decide_eq_true hh.1.1.1, bool_not_eq_true hh.1.2⟩
  simp only [rustLines]
  rw [if_neg (by
    intro hlast
    exact (hpieces [] (mem_of_getLast?Eq hlast)).1 rfl)]
  rw [List.map_congr_left (fun l hl => by
    rw [if_neg (getLast?_ne_of_not_contains (hpieces l hl).2)])]
  exact List.map_id' _

/-- The description pieces the parser accumulates for a stored description:
its `\n`-split. -/
def descStrsOf : Option Str → List Str
  | some d => splitOnChar '\n' d
  | none => []

/-- Replaying the rendered description block loads the pending description
buffer with the `lines()` pieces of the stored description. -/
theorem descLines_replay (dsc : Option Str) (rest : List Str) (M : Option Metadata)
    (secs : List Section) (cur : Option Section) (h : wfDesc dsc = true) :
    parse_reader (descLinesOf dsc ++ rest) ⟨M, secs, cur, none, []⟩ =
      parse_reader rest ⟨M, secs, cur, none, descStrsOf dsc⟩ := by
  cases dsc with
  | none =>
    rw [show descLinesOf none = [] from rfl, List.nil_append]
    rfl
  | some d =>
    rw [show descLinesOf (some d) =
      (rustLines d).map (fun l => (("## ").data) ++ l) from rfl]
    rw [rustLines_eq_split d h]
    rw [wfDesc, List.all_eq_true] at h
    rw [desc_replay _ rest _ (fun L hL => by
      have hh := h L hL
      rw [Bool.and_eq_true, Bool.and_eq_true, Bool.and_eq_true] at hh
      exact ⟨of_decide_eq_true hh.2, of_decide_eq_true hh.1.1.2⟩)]
    rfl

theorem classify_flags_line : classify FLAGS_MESSAGE = .flagsMarker := rfl

theorem classify_default_none_line :
    classify (("# Default value:").data) = .hashMeta (("Default value:").data) := rfl

theorem infer_type_name_mk (nm : Str) (dsc : Option Str) (dflt : Option Value) (val : Value) :
    infer_type_name ⟨nm, dsc, dflt, val⟩ = typeNameOf val := by
  cases val <;> rfl

theorem value_options_mk (nm : Str) (dsc : Option Str) (dflt : Option Value) (val : Value) :
    value_options ⟨nm, dsc, dflt, val⟩ = valOptions val := by
  cases val <;> rfl

/-- The lines `write` pushes for one entry. -/
def entryBlockLines (e : Entry) : List Str :=
  render_entry_comments e (infer_type_name e) (value_options e) ++
    [entryLineOf e, []]

/-- The lines `write` pushes for one section. -/
def sectionLinesOf (sec : Section) : List Str :=
  [['['] ++ sec.name ++ [']'], []] ++ (sec.entries.map entryBlockLines).flatten

/-- The metadata header lines `write` pushes. -/
def metaLinesOf : Option Metadata → List Str
  | some m =>
    [("## Settings file was created by plugin ").data ++ m.mod_name ++ [' '] ++ m.mod_version,
     ("## Plugin GUID: ").data ++ m.mod_guid, []]
  | none => []

theorem writeLines_eq (fd : FileData) :
    writeLines fd = metaLinesOf fd.metadata ++ (fd.sections.map sectionLinesOf).flatten := by
  obtain ⟨md, ss⟩ := fd
  cases md <;> rfl

/-- Replaying the acceptable-values line, range comment and flags marker of a
rendered value fills the builder's `acceptable_values`, `is_flags` and
`range` fields with exactly what the value renders. -/
theorem options_extras_replay (val : Value) (rest : List Str) (M : Option Metadata)
    (secs : List Section) (cur : Option Section) (pend : List Str)
    (bd bt bdv bn bval : Option Str) (hv : wfValue val = true) :
    parse_reader ((acceptLinesOf (valOptions val) ++ extraLinesOf val) ++ rest)
      ⟨M, secs, cur, some (EntryBuilder.mk bd bt bdv none false none bn bval), pend⟩ =
      parse_reader rest ⟨M, secs, cur, some (EntryBuilder.mk bd bt bdv
        (valOptions val) (isFlagsVal val) (rangeStrs val) bn bval), pend⟩ := by
  cases val with
  | Bool bb => rfl
  | String s => rfl
  | Int n =>
    obtain ⟨w, rg⟩ := n
    cases rg with
    | none => rfl
    | some p =>
      obtain ⟨a, b⟩ := p
      rw [wfValue, Bool.and_eq_true] at hv
      have hA : inI32 a = true := ((Bool.and_eq_true _ _).mp hv.2).1
      show parse_reader ((("# Acceptable value range: From ").data ++ intToStr a ++
          (" to ").data ++ intToStr b) :: rest)
        ⟨M, secs, cur, some (EntryBuilder.mk bd bt bdv none false none bn bval), pend⟩ = _
      rw [show ("# Acceptable value range: From ").data ++ intToStr a ++ (" to ").data ++
        intToStr b = ("# Acceptable value range: From ").data ++
          (intToStr a ++ (" to ").data ++ intToStr b) from by simp]
      rw [step_hashMeta _ _ (classify_range_line _)]
      rw [applyHashMeta_range _ _ (intToStr a) (intToStr b)
        (splitOnceTo_append _ _ (intToStr_no_space hA))]
      rfl
  | Float n =>
    obtain ⟨w, rg⟩ := n
    cases rg with
    | none => rfl
    | some p =>
      obtain ⟨a, b⟩ := p
      rw [wfValue, Bool.and_eq_true] at hv
      have hsp : splitOnceTo (formatF32 a ++ (" to ").data ++ formatF32 b) =
          some (formatF32 a, formatF32 b) := of_decide_eq_true hv.2
      show parse_reader ((("# Acceptable value range: From ").data ++ formatF32 a ++
          (" to ").data ++ formatF32 b) :: rest)
        ⟨M, secs, cur, some (EntryBuilder.mk bd bt bdv none false none bn bval), pend⟩ = _
      rw [show ("# Acceptable value range: From ").data ++ formatF32 a ++ (" to ").data ++
        formatF32 b = ("# Acceptable value range: From ").data ++
          (formatF32 a ++ (" to ").data ++ formatF32 b) from by simp]
      rw [step_hashMeta _ _ (classify_range_line _)]
      rw [applyHashMeta_range _ _ (formatF32 a) (formatF32 b) hsp]
      rfl
  | Enum i opts =>
    rw [wfValue, Bool.and_eq_true, Bool.and_eq_true] at hv
    obtain ⟨⟨hne1, hno1⟩, -⟩ := hv
    have hne' : opts ≠ [] := of_decide_eq_true hne1
    have hno' : ∀ o ∈ opts, containsCommaSpace o = false := by
      intro o ho
      rw [List.all_eq_true] at hno1
      exact bool_not_eq_true (hno1 o ho)
    show parse_reader ((("# Acceptable values: ").data ++ joinSep (',' :: [' ']) opts) :: rest)
      ⟨M, secs, cur, some (EntryBuilder.mk bd bt bdv none false none bn bval), pend⟩ = _
    rw [step_hashMeta _ _ (classify_acceptable _)]
    rw [applyHashMeta_acceptable]
    rw [splitCommaSpace_joinSep opts hno' hne']
    rfl
  | Flags is opts =>
    rw [wfValue, Bool.and_eq_true, Bool.and_eq_true, Bool.and_eq_true] at hv
    obtain ⟨⟨⟨hne1, hno1⟩, -⟩, -⟩ := hv
    have hne' : opts ≠ [] := of_decide_eq_true hne1
    have hno' : ∀ o ∈ opts, containsCommaSpace o = false := by
      intro o ho
      rw [List.all_eq_true] at hno1
      exact bool_not_eq_true (hno1 o ho)
    show parse_reader ((("# Acceptable values: ").data ++ joinSep (',' :: [' ']) opts) ::
        FLAGS_MESSAGE :: rest)
      ⟨M, secs, cur, some (EntryBuilder.mk bd bt bdv none false none bn bval), pend⟩ = _
    rw [step_hashMeta _ _ (classify_acceptable _)]
    rw [applyHashMeta_acceptable]
    rw [splitCommaSpace_joinSep opts hno' hne']
    rw [step_flagsMarker _ _ classify_flags_line]
    rfl

/-- Replaying the full comment block of a rendered value (type hint, default,
acceptable values, range, flags marker) builds exactly the builder the entry
line will be resolved with. -/
theorem builder_replay (val : Value) (dflt : Option Value) (rest : List Str)
    (M : Option Metadata) (secs : List Section) (cur : Option Section) (pend : List Str)
    (hv : wfValue val = true) :
    parse_reader ((("# Setting type: ").data ++ typeNameOf val) :: defaultLineOf dflt ::
        ((acceptLinesOf (valOptions val) ++ extraLinesOf val) ++ rest))
      ⟨M, secs, cur, none, pend⟩ =
      parse_reader rest ⟨M, secs, cur, some
        (EntryBuilder.mk none (some (typeNameOf val)) (dflt.map value_to_string)
          (valOptions val) (isFlagsVal val) (rangeStrs val) none none), pend⟩ := by
  rw [step_hashMeta _ _ (classify_setting_type (typeNameOf val))]
  rw [show ((⟨M, secs, cur, none, pend⟩ : ParseState).pending_builder.getD
    EntryBuilder.empty) = EntryBuilder.empty from rfl]
  rw [applyHashMeta_type]
  cases dflt with
  | some d =>
    rw [show defaultLineOf (some d) = ("# Default value: ").data ++ value_to_string d from rfl]
    rw [step_hashMeta _ _ (classify_default_some (value_to_string d))]
    rw [applyHashMeta_default_some]
    show parse_reader ((acceptLinesOf (valOptions val) ++ extraLinesOf val) ++ rest)
      ⟨M, secs, cur, some (EntryBuilder.mk none (some (typeNameOf val))
        (some (value_to_string d)) none false none none none), pend⟩ = _
    rw [options_extras_replay val rest M secs cur pend none (some (typeNameOf val))
      (some (value_to_string d)) none none hv]
    rfl
  | none =>
    rw [show defaultLineOf none = ("# Default value:").data from rfl]
    rw [step_hashMeta _ _ classify_default_none_line]
    rw [applyHashMeta_default_none]
    show parse_reader ((acceptLinesOf (valOptions val) ++ extraLinesOf val) ++ rest)
      ⟨M, secs, cur, some (EntryBuilder.mk none (some (typeNameOf val))
        none none false none none none), pend⟩ = _
    rw [options_extras_replay val rest M secs cur pend none (some (typeNameOf val))
      none none none hv]
    rfl

/-- Replaying the whole rendered block of one entry appends exactly that
entry to the open section and clears the pending builder and description
buffer. -/
theorem entry_block_replay (e : Entry) (rest : List Str) (M : Option Metadata)
    (secs : List Section) (cur : Section) (hwf : wfEntry e = true) :
    parse_reader (entryBlockLines e ++ rest) ⟨M, secs, some cur, none, []⟩ =
      parse_reader rest ⟨M, secs, some { cur with entries := cur.entries ++ [e] }, none, []⟩ := by
  obtain ⟨nm, dsc, dflt, val⟩ := e
  rw [wfEntry, Bool.and_eq_true, Bool.and_eq_true, Bool.and_eq_true] at hwf
  obtain ⟨⟨⟨hcl, hdsc⟩, hv⟩, hd⟩ := hwf
  replace hcl : classify (entryLineOf ⟨nm, dsc, dflt, val⟩) =
      .entryLine nm (value_to_string val) := of_decide_eq_true hcl
  have heb : entryBlockLines ⟨nm, dsc, dflt, val⟩ =
      descLinesOf dsc ++ ((("# Setting type: ").data ++ typeNameOf val) ::
        defaultLineOf dflt ::
        ((acceptLinesOf (valOptions val) ++ extraLinesOf val) ++
          [entryLineOf ⟨nm, dsc, dflt, val⟩, []])) := by
    simp [entryBlockLines, render_entry_comments, infer_type_name_mk, value_options_mk,
      List.append_assoc]
  rw [heb, List.append_assoc]
  rw [descLines_replay dsc _ M secs (some cur) hdsc]
  show parse_reader ((("# Setting type: ").data ++ typeNameOf val) :: defaultLineOf dflt ::
      (((acceptLinesOf (valOptions val) ++ extraLinesOf val) ++
        [entryLineOf ⟨nm, dsc, dflt, val⟩, []]) ++ rest))
    ⟨M, secs, some cur, none, descStrsOf dsc⟩ = _
  rw [List.append_assoc (acceptLinesOf (valOptions val) ++ extraLinesOf val)
    ([entryLineOf ⟨nm, dsc, dflt, val⟩, []]) rest]
  rw [builder_replay val dflt ([entryLineOf ⟨nm, dsc, dflt, val⟩, []] ++ rest) M secs
    (some cur) (descStrsOf dsc) hv]
  rw [List.cons_append, List.cons_append, List.nil_append]
  rw [step_entryLine _ _ hcl]
  have happ : applyEntryLine ⟨M, secs, some cur, some
      (EntryBuilder.mk none (some (typeNameOf val)) (dflt.map value_to_string)
        (valOptions val) (isFlagsVal val) (rangeStrs val) none none),
      descStrsOf dsc⟩
      nm (value_to_string val) =
      .ok ⟨M, secs, some { cur with entries := cur.entries ++ [⟨nm, dsc, dflt, val⟩] },
        none, []⟩ := by
    have hbuilder : entryBuilderOf ⟨M, secs, some cur, some
        (EntryBuilder.mk none (some (typeNameOf val)) (dflt.map value_to_string)
          (valOptions val) (isFlagsVal val) (rangeStrs val) none none),
        descStrsOf dsc⟩
        nm (value_to_string val) =
        EntryBuilder.mk dsc (some (typeNameOf val)) (dflt.map value_to_string)
          (valOptions val) (isFlagsVal val) (rangeStrs val) (some nm)
          (some (value_to_string val)) := by
      cases dsc with
      | none => rfl
      | some d =>
        simp only [entryBuilderOf, descStrsOf, Option.getD_some]
        rw [if_pos (splitOnChar_ne_nil '\n' d)]
        rw [joinSep_splitOnChar]
    rw [applyEntryLine, hbuilder, build_roundtrip nm dsc dflt val hv hd]
    rfl
  rw [happ]
  show parse_reader ([] :: rest)
    ⟨M, secs, some { cur with entries := cur.entries ++ [⟨nm, dsc, dflt, val⟩] },
      none, []⟩ = _
  rw [step_empty]

/-- Replaying the rendered blocks of a run of entries appends exactly those
entries to the open section. -/
theorem entries_replay : ∀ (es : List Entry) (rest : List Str) (M : Option Metadata)
    (secs : List Section) (cur : Section), es.all wfEntry = true →
    parse_reader ((es.map entryBlockLines).flatten ++ rest) ⟨M, secs, some cur, none, []⟩ =
      parse_reader rest ⟨M, secs, some { cur with entries := cur.entries ++ es }, none, []⟩
  | [], rest, M, secs, cur, _ => by
    rw [List.map_nil, List.flatten_nil, List.nil_append, List.append_nil]
  | e :: es, rest, M, secs, cur, h => by
    rw [List.all_cons, Bool.and_eq_true] at h
    rw [List.map_cons, List.flatten_cons, List.append_assoc]
    rw [entry_block_replay e _ M secs cur h.1]
    rw [entries_replay es rest M secs { cur with entries := cur.entries ++ [e] } h.2]
    rw [List.append_cons cur.entries e es]

/-- Replaying the rendered blocks of the remaining sections, with a section
still open, closes it and appends all of them. -/
theorem sections_replay : ∀ (ss : List Section) (M : Option Metadata)
    (secs : List Section) (cur : Section),
    ss.all (fun s => s.entries.all wfEntry) = true →
    parse_reader ((ss.map sectionLinesOf).flatten) ⟨M, secs, some cur, none, []⟩ =
      .ok ⟨M, secs ++ cur :: ss⟩
  | [], M, secs, cur, _ => by
    rw [List.map_nil, List.flatten_nil]
    rfl
  | s :: ss, M, secs, cur, h => by
    rw [List.all_cons, Bool.and_eq_true] at h
    rw [List.map_cons, List.flatten_cons]
    show parse_reader ((('[' :: s.name) ++ [']']) :: [] ::
        ((s.entries.map entryBlockLines).flatten ++ (ss.map sectionLinesOf).flatten))
      ⟨M, secs, some cur, none, []⟩ = _
    rw [step_section_some _ (⟨M, secs, some cur, none, []⟩ : ParseState) cur
      (classify_section_line s.name) rfl]
    rw [step_empty]
    show parse_reader
      ((s.entries.map entryBlockLines).flatten ++ (ss.map sectionLinesOf).flatten)
      ⟨M, secs ++ [cur], some ⟨s.name, []⟩, none, []⟩ = _
    rw [entries_replay s.entries _ M (secs ++ [cur]) ⟨s.name, []⟩ h.1]
    show parse_reader ((ss.map sectionLinesOf).flatten)
      ⟨M, secs ++ [cur], some s, none, []⟩ = _
    rw [sections_replay ss M (secs ++ [cur]) s h.2]
    rw [List.append_cons secs cur (s :: ss)]

/-- Replaying all rendered section blocks from a state with no open section
yields exactly those sections. -/
theorem sections_replay_top (ss : List Section) (M : Option Metadata)
    (h : ss.all (fun s => s.entries.all wfEntry) = true) :
    parse_reader ((ss.map sectionLinesOf).flatten) ⟨M, [], none, none, []⟩ = .ok ⟨M, ss⟩ := by
  cases ss with
  | nil => rfl
  | cons s ss' =>
    rw [List.all_cons, Bool.and_eq_true] at h
    rw [List.map_cons, List.flatten_cons]
    show parse_reader ((('[' :: s.name) ++ [']']) :: [] ::
        ((s.entries.map entryBlockLines).flatten ++ (ss'.map sectionLinesOf).flatten))
      ⟨M, [], none, none, []⟩ = _
    rw [step_section_none _ (⟨M, [], none, none, []⟩ : ParseState)
      (classify_section_line s.name) rfl]
    rw [step_empty]
    show parse_reader
      ((s.entries.map entryBlockLines).flatten ++ (ss'.map sectionLinesOf).flatten)
      ⟨M, [], some ⟨s.name, []⟩, none, []⟩ = _
    rw [entries_replay s.entries _ M [] ⟨s.name, []⟩ h.1]
    show parse_reader ((ss'.map sectionLinesOf).flatten) ⟨M, [], some s, none, []⟩ = _
    rw [sections_replay ss' M [] s h.2]
    rfl

/-- Replaying the rendered metadata header block loads the metadata. -/
theorem metadata_replay (m : Metadata) (rest : List Str)
    (hv : containsChar ' ' m.mod_version = false) :
    parse_reader (metaLinesOf (some m) ++ rest) ParseState.initial =
      parse_reader rest ⟨some m, [], none, none, []⟩ := by
  show parse_reader ((("## Settings file was created by plugin ").data ++ m.mod_name ++
      [' '] ++ m.mod_version) :: (("## Plugin GUID: ").data ++ m.mod_guid) :: [] :: rest)
    ParseState.initial = _
  rw [show ("## Settings file was created by plugin ").data ++ m.mod_name ++ [' '] ++
      m.mod_version = ("## Settings file was created by plugin ").data ++
      (m.mod_name ++ ' ' :: m.mod_version) from by simp]
  rw [step_metaHeader _ _ _ (classify_meta_line _)
    (read_metadata_line_append m.mod_name m.mod_version hv)]
  rw [step_empty]
  rw [dropPre_append]
  rfl

/-- Parsing the rendered text of a well-formed document yields the document
back, exactly. -/
theorem parse_write_eq (fd : FileData) (h : WfFileData fd = true) :
    parse (write fd) = .ok fd := by
  obtain ⟨md, ss⟩ := fd
  rw [WfFileData, Bool.and_eq_true, Bool.and_eq_true] at h
  obtain ⟨⟨hmeta, hsecs⟩, hlines⟩ := h
  rw [List.all_eq_true] at hlines
  have hln : ∀ l ∈ writeLines ⟨md, ss⟩, containsChar '\n' l = false := by
    intro l hl
    have hh := hlines l hl
    rw [Bool.and_eq_true] at hh
    exact bool_not_eq_true hh.1
  have hcr : ∀ l ∈ writeLines ⟨md, ss⟩, l.getLast? ≠ some '\r' := by
    intro l hl
    have hh := hlines l hl
    rw [Bool.and_eq_true] at hh
    exact of_decide_eq_true hh.2
  by_cases hempty : md = none ∧ ss = []
  · obtain ⟨h1, h2⟩ := hempty
    subst h1
    subst h2
    rfl
  · have hne : writeLines ⟨md, ss⟩ ≠ [] := by
      rw [writeLines_eq]
      cases md with
      | some m => simp [metaLinesOf]
      | none =>
        cases ss with
        | nil => exact absurd ⟨rfl, rfl⟩ hempty
        | cons s ss' => simp [metaLinesOf, sectionLinesOf]
    rw [parse, write]
    rw [parse_reader_rustReadLines (writeLines ⟨md, ss⟩) ParseState.initial hln hcr hne]
    rw [writeLines_eq]
    cases md with
    | some m =>
      have hver : containsChar ' ' m.mod_version = false := bool_not_eq_true hmeta
      show parse_reader (metaLinesOf (some m) ++ ((ss.map sectionLinesOf).flatten))
        ParseState.initial = _
      rw [metadata_replay m _ hver]
      exact sections_replay_top ss (some m) hsecs
    | none =>
      show parse_reader (metaLinesOf none ++ ((ss.map sectionLinesOf).flatten))
        ParseState.initial = _
      rw [show metaLinesOf none ++ ((ss.map sectionLinesOf).flatten) =
        (ss.map sectionLinesOf).flatten from by simp [metaLinesOf]]
      exact sections_replay_top ss none hsecs

def c2Input : Str :=
  ("[Section1]\n# Setting type: Boolean\n# Default value: True\nKey1 = False").data

def c2InputLower : Str :=
  ("[Section1]\n# Setting type: Boolean\n# Default value: true\nKey1 = false").data

def c2Doc : FileData :=
  ⟨none, [⟨("Section1").data, [⟨("Key1").data, none, some (.Bool true), .Bool false⟩]⟩]⟩

def c2Output : Str :=
  ("[Section1]\n\n# Setting type: Boolean\n# Default value: true\nKey1 = false\n").data

/-- Claim C2 is false as stated: parsing the four lines `[Section1]`,
`# Setting type: Boolean`, `# Default value: True`, `Key1 = False` does not
succeed — the embedded `str::parse::<bool>` accepts only the exact lowercase
`true`/`false`, so the capitalised `True` of the default makes the whole
parse fail with the bool parse error. -/
theorem C2_counterexample :
    parse c2Input = .error (("provided string was not `true` or `false`").data) := by decide

/-- Claim C2 amended: with the lowercase spellings `true`/`false` the
four-line input parses to one section `Section1` with one entry `Key1`,
default `Bool(true)`, value `Bool(false)`; `write` of that document
reproduces the four lines with a blank separator line after the section
header and a trailing blank line (not the four lines verbatim). -/
theorem C2_amended : parse c2InputLower = .ok c2Doc ∧ write c2Doc = c2Output := by
  exact ⟨by decide, by decide⟩

/-! ## Claim C6: enum and flags resolution -/

/-- Claim C6: with an option list present and flags mode off, the parsed
value is `Enum` whose index is the position of the first exact match of the
raw text in the options (`List.findIdx?`), and `0` when nothing matches —
parsing never fails; with flags mode on, the raw text is split on `", "` and
each token is mapped to the position of its first exact match, tokens with no
match being dropped (`filterMap`). -/
theorem C6_enum_resolution (s : Str) (opts : List Str) :
    (parse_enum s opts false = .Enum ((List.findIdx? (fun o => o = s) opts).getD 0) opts) ∧
    (s ∉ opts → parse_enum s opts false = .Enum 0 opts) ∧
    (∀ i, opts.get? i = some s → (∀ j, j < i → opts.get? j ≠ some s) →
      parse_enum s opts false = .Enum i opts) ∧
    (parse_enum s opts true =
      .Flags ((splitCommaSpace s).filterMap (fun t => List.findIdx? (fun o => o = t) opts))
        opts) := by
  refine ⟨?_, ?_, ?_, ?_⟩
  · simp [parse_enum, position_eq_findIdx?]
  · intro h
    simp [parse_enum, position_eq_none_of_not_mem h]
  · intro i hi hmin
    have : position s opts = some i := by
      induction opts generalizing i with
      | nil => simp at hi
      | cons o os ih =>
        match i with
        | 0 =>
          simp only [List.get?] at hi
          have ho : o = s := Option.some.inj hi
          simp [position, ho]
        | i + 1 =>
          have ho : o ≠ s := by
            intro h
            exact hmin 0 (Nat.succ_pos i) (by simp [h])
          simp only [List.get?] at hi
          simp only [position, ho, if_false]
          rw [ih i hi (fun j hj => hmin (j + 1) (Nat.succ_lt_succ hj))]
          rfl
    simp [parse_enum, this]
  · have hfun : (fun v => position v opts) = (fun t => List.findIdx? (fun o => o = t) opts) :=
      funext fun t => position_eq_findIdx? t opts
    simp [parse_enum, hfun]

/-! ## Claim C7: flags round-trip through the literal "0" -/

/-- Claim C7: a `Flags` value with an empty index set renders as the literal
text `0`; and parsing the text `0` in flags mode against an option list that
does not contain `"0"` yields a `Flags` value with an empty index set. -/
theorem C7_flags_zero (opts : List Str) (h : ("0").data ∉ opts) :
    value_to_string (.Flags [] opts) = ("0").data ∧
    parse_enum (("0").data) opts true = .Flags [] opts := by
  constructor
  · rfl
  · have hz : position (("0").data) opts = none := position_eq_none_of_not_mem h
    have hsplit : splitCommaSpace (("0").data) = [("0").data] := rfl
    simp [parse_enum, hsplit, hz]

/-- Witness for C7 at a concrete option list. -/
theorem C7_flags_zero_witness :
    (("0").data ∉ [("A").data, ("B").data]) ∧
    (value_to_string (.Flags [] [("A").data, ("B").data]) = ("0").data ∧
     parse_enum (("0").data) [("A").data, ("B").data] true =
       .Flags [] [("A").data, ("B").data]) :=
  ⟨by decide, C7_flags_zero [("A").data, ("B").data] (by decide)⟩

/-! ## Claim C8: locale floats -/

/-- Claim C8: parsing the value text `3,14` with type `Single` yields the
float `3.14` (in the exact-decimal model, the rational `157/50`), commas
being normalized to dots before numeric parsing for the value and for both
range bounds alike; and rendering the float `3.14` produces the text `3.14`
with a dot decimal separator whatever the attached range. -/
theorem C8_locale_floats :
    parse_num_f32 (("3,14").data) none = .ok ⟨⟨157, 50⟩, none⟩ ∧
    parse_num_f32 (("1,5").data) (some ((("0,5").data), (("2,5").data))) =
      .ok ⟨⟨3, 2⟩, some (⟨1, 2⟩, ⟨5, 2⟩)⟩ ∧
    (∀ r, value_to_string (.Float ⟨⟨157, 50⟩, r⟩) = ("3.14").data) :=
  ⟨by decide, by decide, fun _ => by simp only [value_to_string]; decide⟩

/-! ## Claim C4: entry line before any section header -/

/-- Claim C4 is false in its error-message part: an entry line reached before
any section header need not produce the error `entry has no section` — when
the entry itself fails to build, that failure surfaces first.  Here `k = 1x`
is heuristically typed `Int32` and its digit parse error is what the parse
returns. -/
theorem C4_counterexample :
    parse (("k = 1x").data) = .error (("invalid digit found in string").data) ∧
    ("invalid digit found in string").data ≠ ("entry has no section").data := by
  exact ⟨by decide, by decide⟩

/-- Claim C4 amended: an entry line reached while no section is open always
makes the parse fail, returning an error and no document: the error is
`entry has no section` when the entry itself builds, and the builder's own
error otherwise. -/
theorem C4_amended (l : Str) (rest : List Str) (st : ParseState) (n v : Str)
    (hc : classify l = .entryLine n v) (hs : st.current_section = none) :
    parse_reader (l :: rest) st =
      .error (match (entryBuilderOf st n v).build with
              | .ok _ => ("entry has no section").data
              | .error e => e) := by
  rw [parse_reader.eq_def]
  simp only [hc]
  rcases hb : (entryBuilderOf st n v).build with e | pe <;>
    simp only [applyEntryLine, hb, hs] <;> rfl

/-- Witness for C4 at the concrete input line `k = v` and the initial state. -/
theorem C4_witness :
    (classify (("k = v").data) = .entryLine (("k").data) (("v").data)) ∧
    (ParseState.initial.current_section = none) ∧
    parse_reader [("k = v").data] ParseState.initial =
      .error (match (entryBuilderOf ParseState.initial (("k").data) (("v").data)).build with
              | .ok _ => ("entry has no section").data
              | .error e => e) :=
  ⟨by decide, rfl,
   C4_amended (("k = v").data) [] ParseState.initial (("k").data) (("v").data) (by decide) rfl⟩

/-! ## Claim C5: strict booleans -/

def c5Input : Str :=
  ("[S]\n# Setting type: Boolean\n# Acceptable values: A, B\nK = C").data

/-- Claim C5 is false as stated: when an `# Acceptable values:` option list is
present, the entry parses as enum-like and its `Setting type: Boolean` hint is
ignored, so an entry whose type resolves to Boolean can parse successfully
with value text that is neither `true` nor `false`. -/
theorem C5_counterexample :
    parse c5Input =
      .ok ⟨none, [⟨("S").data,
        [⟨("K").data, none, none, .Enum 0 [("A").data, ("B").data]⟩]⟩]⟩ ∧
    trim (("C").data) ≠ ("true").data ∧ trim (("C").data) ≠ ("false").data := by
  exact ⟨by decide, by decide, by decide⟩

/-- Claim C5 amended: for an entry carrying no option list (and no default
text), when the type resolves to Boolean — via an explicit hint or inferred
from a leading `t`/`f` — the entry builds successfully exactly when the
trimmed value text is exactly `true` or `false` (case-sensitive). -/
theorem C5_amended (b : EntryBuilder) (n vs : Str)
    (hname : b.name = some n) (hval : b.value = some vs)
    (hopts : b.acceptable_values = none) (hdflt : b.default_value = none)
    (htype : b.type_name = some (("Boolean").data) ∨
             (b.type_name = none ∧ check_value_type vs = ("Boolean").data)) :
    (∃ pe, b.build = .ok pe) ↔ (trim vs = ("true").data ∨ trim vs = ("false").data) := by
  have ht : b.type_name.getD (check_value_type vs) = ("Boolean").data := by
    rcases htype with h | ⟨h1, h2⟩
    · rw [h]; rfl
    · rw [h1]; exact h2
  have hbuild : b.build = (parse_simple_value vs (("Boolean").data) b.range).map
      (fun value => ⟨n, b.description, ("Boolean").data, none, value⟩) := by
    rw [EntryBuilder.build, hname, hval, hopts, hdflt]
    simp only [Option.getD_some, ht]
    rfl
  rw [hbuild]
  have hps : (∃ u, parse_simple_value vs (("Boolean").data) b.range = .ok u) ↔
      (trim vs = ("true").data ∨ trim vs = ("false").data) := by
    by_cases h1 : trim vs = ("true").data
    · simp [parse_simple_value, h1]
    · by_cases h2 : trim vs = ("false").data <;> simp [parse_simple_value, h1, h2]
  rw [← hps]
  cases parse_simple_value vs (("Boolean").data) b.range <;> simp [Except.map]

def c5Builder : EntryBuilder :=
  { type_name := some (("Boolean").data), name := some (("K").data),
    value := some (("true").data) }

/-- Witness for C5 at a concrete builder with an explicit Boolean hint. -/
theorem C5_witness :
    (c5Builder.name = some (("K").data) ∧ c5Builder.value = some (("true").data) ∧
     c5Builder.acceptable_values = none ∧ c5Builder.default_value = none ∧
     c5Builder.type_name = some (("Boolean").data)) ∧
    (∃ pe, c5Builder.build = .ok pe) :=
  ⟨⟨rfl, rfl, rfl, rfl, rfl⟩,
   (C5_amended c5Builder (("K").data) (("true").data) rfl rfl rfl rfl
     (Or.inl rfl)).mpr (Or.inl (by decide))⟩

/-! ## Claim C9: description accumulation -/

def c9Input : Str := ("[S]\n##  a \nK = x").data

/-- Claim C9 is false as stated: the description line `##  a ` (two leading
spaces after `##`, one trailing space) is stored as `a`, not as ` a ` — the
code trims all leading and trailing whitespace after stripping the `##`
marks, it does not strip just one leading space. -/
theorem C9_counterexample :
    parse c9Input =
      .ok ⟨none, [⟨("S").data,
        [⟨("K").data, some (("a").data), none, .String (("x").data)⟩]⟩]⟩ ∧
    ("a").data ≠ (" a ").data := by
  exact ⟨by decide, by decide⟩

theorem startsWith_hashes {l : Str} (h : startsWith ['#', '#'] l = true) :
    ∃ t, l = '#' :: '#' :: t := by
  match l with
  | [] => simp [startsWith, dropPre] at h
  | [c] =>
    by_cases hc : c = '#' <;> simp [startsWith, dropPre, hc] at h
  | c :: d :: t =>
    by_cases hc : c = '#'
    · by_cases hd : d = '#'
      · exact ⟨t, by rw [hc, hd]⟩
      · simp [startsWith, dropPre, hc, hd] at h
    · simp [startsWith, dropPre, hc] at h

/-- Claim C9 amended: a line starting with `##` and not matching the
metadata-header shape appends to the pending description buffer that line
with every leading `##` pair stripped and the remainder trimmed of all
leading and trailing whitespace (not just the `##` prefix and one leading
space). -/
theorem C9_amended (l : Str) (rest : List Str) (st : ParseState)
    (h1 : startsWith ['#', '#'] l = true)
    (h2 : startsWith (("## Settings file was created by plugin ").data) l = false) :
    parse_reader (l :: rest) st =
      parse_reader rest
        { st with pending_desc_lines := st.pending_desc_lines ++ [trim (trimStartHashes l)] } := by
  obtain ⟨t, rfl⟩ := startsWith_hashes h1
  have hc : classify ('#' :: '#' :: t) = .desc := by
    rw [classify,
      if_neg (List.cons_ne_nil '#' ('#' :: t)),
      if_neg (by rw [h2]; exact Bool.false_ne_true),
      if_neg (by intro hcontra; exact absurd (Option.some.inj hcontra.1) (by decide)),
      if_pos (by rfl)]
  rw [parse_reader.eq_def]
  simp only [hc]

/-- Witness for C9 at the concrete line `## x`. -/
theorem C9_witness :
    (startsWith ['#', '#'] (("## x").data) = true) ∧
    (startsWith (("## Settings file was created by plugin ").data) (("## x").data) = false) ∧
    parse_reader [("## x").data] ParseState.initial =
      parse_reader []
        { ParseState.initial with
          pending_desc_lines :=
            ParseState.initial.pending_desc_lines ++ [trim (trimStartHashes (("## x").data))] } :=
  ⟨by decide, by decide, C9_amended (("## x").data) [] ParseState.initial (by decide) (by decide)⟩

/-! ## Claim C10: the in-memory update of `set_bepinex_cfg_entry` -/

/-- The entry-level update as the claim describes it: the first entry named
`ename` keeps its name, description and default and only its value is
replaced; if none exists, a fresh entry with no description and no default is
appended at the end. -/
def specUpdateSection (sec : Section) (ename : Str) (v : Value) : Section :=
  match sec.entries.findIdx? (fun e => e.name = ename) with
  | none => { sec with entries := sec.entries ++ [⟨ename, none, none, v⟩] }
  | some j =>
    { sec with entries :=
        match sec.entries.get? j with
        | some e => sec.entries.set j { e with value := v }
        | none => sec.entries }

/-- The document-level update as the claim describes it: only the first
section named `sname` is touched (every other section, the section order and
the metadata are unchanged); if no section has that name, a new one is
appended at the end. -/
def specSetCfg (file : FileData) (sname ename : Str) (v : Value) : FileData :=
  match file.sections.findIdx? (fun s => s.name = sname) with
  | none => { file with sections := file.sections ++ [⟨sname, [⟨ename, none, none, v⟩]⟩] }
  | some i =>
    { file with sections :=
        match file.sections.get? i with
        | some s => file.sections.set i (specUpdateSection s ename v)
        | none => file.sections }

theorem updateFirst_append_of_none {α : Type} (p : α → Bool) (f : α → α) {l₁ : List α}
    (l₂ : List α) (h : updateFirst p f l₁ = none) :
    updateFirst p f (l₁ ++ l₂) = (updateFirst p f l₂).map (l₁ ++ ·) := by
  induction l₁ with
  | nil =>
    simp only [List.nil_append]
    cases hu : updateFirst p f l₂ <;> simp [hu]
  | cons x xs ih =>
    by_cases hx : p x
    · simp [updateFirst, hx] at h
    · simp only [updateFirst, hx, Bool.false_eq_true, if_false] at h
      rw [Option.map_eq_none'] at h
      simp only [List.cons_append, updateFirst, hx, Bool.false_eq_true, if_false]
      cases hu : updateFirst p f l₂ <;> simp [ih h, hu]

theorem updateFirst_eq_spec {α : Type} (p : α → Bool) (f : α → α) (l : List α) :
    updateFirst p f l =
      match List.findIdx? p l with
      | none => none
      | some i =>
        some (match l.get? i with
              | some x => l.set i (f x)
              | none => l) := by
  induction l with
  | nil => rfl
  | cons x xs ih =>
    by_cases hx : p x
    · simp [updateFirst, hx, List.findIdx?_cons]
    · simp only [updateFirst, hx, Bool.false_eq_true, if_false, List.findIdx?_cons,
        List.findIdx?_succ, ih]
      cases hfi : List.findIdx? p xs with
      | none => rfl
      | some i =>
        simp only [Option.map_some]
        cases hg : xs.get? i with
        | none =>
          rw [List.get?_eq_getElem?] at hg
          simp [hg]
        | some y =>
          rw [List.get?_eq_getElem?] at hg
          simp [hg]

/-- Claim C10: the in-memory update of `set_bepinex_cfg_entry` always
succeeds and equals the claim-shaped description: it replaces only the value
of the first entry named `ename` of the first section named `sname`, keeping
that entry's name, description and default, every other entry and section,
their order, and the metadata; a missing section is appended at the end of
the sections, and a missing entry is appended at the end of that section's
entries with no description and no default. -/
theorem C10_set_entry (file : FileData) (sname ename : Str) (v : Value) :
    set_bepinex_cfg_entry file sname ename v = .ok (specSetCfg file sname ename v) := by
  have hsec : ∀ sec : Section, applyEntryUpdate ename v sec = specUpdateSection sec ename v := by
    intro sec
    rw [applyEntryUpdate, specUpdateSection, updateFirst_eq_spec]
    cases List.findIdx? (fun e => e.name = ename) sec.entries with
    | none => rfl
    | some i =>
      cases hg : sec.entries.get? i with
      | none =>
        rw [List.get?_eq_getElem?] at hg
        simp [hg]
      | some e =>
        rw [List.get?_eq_getElem?] at hg
        simp [hg]
  have hupd : updateFirst (fun s => s.name = sname) (applyEntryUpdate ename v) file.sections =
      updateFirst (fun s => s.name = sname) (fun s => specUpdateSection s ename v)
        file.sections := by
    congr 1
    funext s
    exact hsec s
  rw [set_bepinex_cfg_entry, hupd, updateFirst_eq_spec, specSetCfg]
  cases hfi : List.findIdx? (fun s => s.name = sname) file.sections with
  | some i =>
    cases hg : file.sections.get? i with
    | some s =>
      rw [List.get?_eq_getElem?] at hg
      simp [hg]
    | none =>
      rw [List.get?_eq_getElem?] at hg
      simp [hg]
  | none =>
    have hnone : updateFirst (fun s => s.name = sname) (applyEntryUpdate ename v)
        file.sections = none := by
      rw [hupd, updateFirst_eq_spec, hfi]
    rw [updateFirst_append_of_none _ _ _ hnone]
    simp [updateFirst, applyEntryUpdate]

/-! ### C1 and C3: the parse/write round trip -/

/-- A three-line input whose `##` line stores the empty description. -/
def c1Doc : Str := ("[S]\n##\nK = x").data

/-- What `parse` returns for `c1Doc`: the entry carries `description =
some ""`. -/
def c1Fd1 : FileData :=
  ⟨none, [⟨("S").data, [⟨("K").data, some [], none, .String (("x").data)⟩]⟩]⟩

/-- What re-parsing the rendered form of `c1Fd1` returns: the empty
description has become `none`. -/
def c1Fd2 : FileData :=
  ⟨none, [⟨("S").data, [⟨("K").data, none, none, .String (("x").data)⟩]⟩]⟩

/-- A document with an out-of-range enum index: its value renders as the
empty text, which re-parses to index 0, and re-rendering then writes the
first option instead. -/
def c3Fd : FileData :=
  ⟨none, [⟨("S").data, [⟨("K").data, none, none, .Enum 5 [("a").data, ("b").data]⟩]⟩]⟩

def c3Fd2 : FileData :=
  ⟨none, [⟨("S").data, [⟨("K").data, none, none, .Enum 0 [("a").data, ("b").data]⟩]⟩]⟩

/-- A document exercising every value variant, used to instantiate the
round-trip theorems: metadata, two sections, a described boolean with
default, a ranged integer with default, a string with spaces, a float, an
enum with default and a flag set. -/
def sampleDoc : FileData :=
  ⟨some ⟨("ModName").data, ("1.0.0").data, ("com.example.mod").data⟩,
   [⟨("Sec1").data,
     [⟨("BoolKey").data, some (("line1\nline2").data), some (.Bool true), .Bool false⟩,
      ⟨("IntKey").data, none, some (.Int ⟨3, some (0, 10)⟩), .Int ⟨5, some (0, 10)⟩⟩,
      ⟨("StrKey").data, none, none, .String (("hello world").data)⟩]⟩,
    ⟨("Sec2").data,
     [⟨("FloatKey").data, none, none, .Float ⟨⟨157, 50⟩, none⟩⟩,
      ⟨("EnumKey").data, none, some (.Enum 0 [("Debug").data, ("Warning").data]),
        .Enum 1 [("Debug").data, ("Warning").data]⟩,
      ⟨("FlagsKey").data, none, none, .Flags [0, 1] [("Debug").data, ("Warning").data]⟩]⟩]⟩

/-- Claim C1 is false as stated: the document parsed from `"[S]\n##\nK = x"`
carries `description = some ""`, but writing it renders no description lines
(the `lines()` of `""` are empty), so re-parsing returns `description =
none` — parse(write(x)) succeeds but its descriptions are not equal to
`x`'s. -/
theorem C1_counterexample :
    parse c1Doc = .ok c1Fd1 ∧ parse (write c1Fd1) = .ok c1Fd2 ∧ c1Fd2 ≠ c1Fd1 := by
  refine ⟨by decide, by decide, by decide⟩

/-- Claim C1 amended: for every well-formed document (metadata version
without spaces; every entry's rendered name/value line re-classifies as an
entry line; descriptions made of nonempty trim-stable `\r`-free lines;
values with in-range integers, exactly re-parsed floats, and consistent
first-match enum/flags indices over `", "`-free nonempty options;
defaults compatible with their values; no rendered line embedding `\n` or
ending in `\r`), `parse (write x)` succeeds and returns exactly `x` —
metadata, section names and order, entry names and order, descriptions,
defaults and values all included. -/
theorem C1_amended (fd : FileData) (h : WfFileData fd = true) :
    parse (write fd) = .ok fd := parse_write_eq fd h

theorem C1_witness :
    WfFileData sampleDoc = true ∧ parse (write sampleDoc) = .ok sampleDoc :=
  ⟨by decide, C1_amended sampleDoc (by decide)⟩

/-- Claim C3 is false as stated: for the document with enum index 5 over the
options `a, b`, `parse (write x)` succeeds (yielding index 0), yet the
re-rendered text differs from `write x` — the empty value text becomes
`a`. -/
theorem C3_counterexample :
    parse (write c3Fd) = .ok c3Fd2 ∧ write c3Fd2 ≠ write c3Fd := by
  refine ⟨by decide, by decide⟩

/-- Claim C3 amended: for every well-formed document (`WfFileData`),
whatever `parse (write x)` returns re-renders to exactly `write x`; the
canonical form is a fixed point on the well-formed domain. -/
theorem C3_amended (fd fd2 : FileData) (hw : WfFileData fd = true)
    (hp : parse (write fd) = .ok fd2) : write fd2 = write fd := by
  rw [parse_write_eq fd hw] at hp
  injection hp with h
  rw [← h]

set_option maxRecDepth 16384 in
theorem C3_witness :
    WfFileData sampleDoc = true ∧ parse (write sampleDoc) = .ok sampleDoc ∧
      write sampleDoc = write sampleDoc :=
  ⟨by decide, by decide, C3_amended sampleDoc sampleDoc (by decide) (by decide)⟩

end Cfg
